import Mathlib

/-!
Verification of the core extraction-and-deduplication pipeline of a
directory web scraper (`scraper.py`, `models.py`, `utils.py`).

The Python source is embedded shallowly:

* dataclasses become Lean structures (`ProjectInfo`, `ReviewerInfo`,
  `CompetitorInfo`, `ScrapedData`, and the flat export row `FlatRow`);
* `Optional[X]` fields become `Option X`; Python `float` scores are
  modelled as `ℚ` (no float arithmetic is performed by the claims);
* Python strings are modelled as `String` / `List Char`, with explicit
  ASCII models of `str.strip`, `str.lower` and the handful of concrete
  regular expressions the code uses (`re.search` with leftmost-match
  semantics, implemented directly for each concrete pattern);
* the insertion-ordered Python `dict` used by the deduplicator is
  modelled as an insertion-ordered association list;
* the `retry` decorator is modelled as a function from an attempt-indexed
  outcome oracle to a result together with the list of backoff sleeps.
-/

namespace WebScraper

/-! ## Data model (`models.py`) -/

/-- `ProjectInfo` dataclass of `models.py` (scores are Python floats,
modelled as `ℚ`). -/
structure ProjectInfo where
  service_provided : Option String := none
  project_size : Option String := none
  start_date : Option String := none
  end_date : Option String := none
  score : Option ℚ := none
  score_quality : Option ℚ := none
  score_schedule : Option ℚ := none
  score_cost : Option ℚ := none
  score_willing_to_refer : Option ℚ := none
deriving DecidableEq, Repr

/-- `ReviewerInfo` dataclass of `models.py`. -/
structure ReviewerInfo where
  name : Option String := none
  job_title : Option String := none
  company : Option String := none
  industry : Option String := none
  location : Option String := none
  company_size : Option String := none
  project : Option ProjectInfo := none
deriving DecidableEq, Repr

/-- `CompetitorInfo` dataclass of `models.py`. -/
structure CompetitorInfo where
  name : Option String := none
  locations : List String := []
deriving DecidableEq, Repr

/-- `ScrapedData` dataclass of `models.py`. -/
structure ScrapedData where
  category : String := "Development"
  subcategory : Option String := none
  competitor : Option CompetitorInfo := none
  reviewers : List ReviewerInfo := []
  scraped_at : Option String := none
  source_url : Option String := none
  source_url_review : Option String := none
deriving DecidableEq, Repr

/-! ## Python string primitives (ASCII model) -/

/-- ASCII whitespace recognized by Python's `str.strip` and `\s`. -/
def isPySpace (c : Char) : Bool :=
  c = ' ' || c = '\t' || c = '\n' || c = '\r' || c = '\x0b' || c = '\x0c'

/-- Python `str.strip()` on a character list. -/
def pyStrip (l : List Char) : List Char :=
  ((l.dropWhile isPySpace).reverse.dropWhile isPySpace).reverse

/-- Python `str.lower()` on a character list (ASCII model). -/
def pyLower (l : List Char) : List Char := l.map Char.toLower

/-- Run-tracking scan behind `collapseWs`: the flag records whether the
previous character was whitespace (so the current run already emitted
its single space). -/
def collapseWsAux : Bool → List Char → List Char
  | _, [] => []
  | inRun, c :: rest =>
    if isPySpace c then
      if inRun then collapseWsAux true rest
      else ' ' :: collapseWsAux true rest
    else c :: collapseWsAux false rest

/-- `re.sub(r'\s+', ' ', ·)`: collapse every whitespace run to one space. -/
def collapseWs (l : List Char) : List Char := collapseWsAux false l

/-! ## `DataCleaner.clean_text` (`utils.py`, lines 115-125) -/

/-- `DataCleaner.clean_text`: `None`/`""` give `None`; otherwise strip,
collapse whitespace runs, and return `None` if the result is empty. -/
def clean_text : Option String → Option String
  | none => none
  | some s =>
    if s = "" then none
    else
      let cleaned := String.mk (collapseWs (pyStrip s.data))
      if cleaned = "" then none else some cleaned

/-! ## The deduplicator (`scraper.py`, `_deduplicate_companies`, lines 602-648) -/

/-- `company_name.lower().strip()` (line 613). -/
def normalizeName (s : String) : String :=
  String.mk (pyStrip (pyLower s.data))

/-- The grouping key of a record: `record.competitor.name if record.competitor
else None`, skipped when falsy (lines 608-613). -/
def recordKey (r : ScrapedData) : Option String :=
  match r.competitor with
  | none => none
  | some c =>
    match c.name with
    | none => none
    | some n => if n = "" then none else some (normalizeName n)

/-- Append a record to its key's group in the insertion-ordered dict
(lines 615-617): a new key goes to the end, an existing key's list grows. -/
def addToGroups (gs : List (String × List ScrapedData)) (k : String)
    (r : ScrapedData) : List (String × List ScrapedData) :=
  match gs with
  | [] => [(k, [r])]
  | (k', rs) :: rest =>
    if k' = k then (k', rs ++ [r]) :: rest
    else (k', rs) :: addToGroups rest k r

/-- The grouping loop of `_deduplicate_companies` (lines 607-617), with
the accumulated dict explicit: records with a falsy name are skipped,
the rest are appended to their normalized name's group. -/
def buildGroupsFrom (gs : List (String × List ScrapedData)) :
    List ScrapedData → List (String × List ScrapedData)
  | [] => gs
  | r :: rest =>
    match recordKey r with
    | none => buildGroupsFrom gs rest
    | some k => buildGroupsFrom (addToGroups gs k r) rest

/-- The groups built by `_deduplicate_companies` (lines 607-617). -/
def buildGroups (data : List ScrapedData) : List (String × List ScrapedData) :=
  buildGroupsFrom [] data

/-- The dedup signature (lines 634-638): each component is
`field or ""`. -/
def signature (rv : ReviewerInfo) : String × String × String :=
  (rv.name.getD "", rv.company.getD "", rv.job_title.getD "")

/-- The merge scan (lines 627-641): keep a reviewer iff its signature has
not been seen yet, in input order. -/
def firstOccurrences : List ReviewerInfo → List (String × String × String) →
    List ReviewerInfo
  | [], _ => []
  | rv :: rest, seen =>
    if signature rv ∈ seen then firstOccurrences rest seen
    else rv :: firstOccurrences rest (signature rv :: seen)

/-- All reviewers of a group's records, in record order (lines 630-632;
the `if record.reviewers` guard is a no-op on an empty list). -/
def groupReviewers (records : List ScrapedData) : List ReviewerInfo :=
  (records.map ScrapedData.reviewers).flatten

/-- The merged reviewer list of a group (lines 627-641). -/
def mergeReviewers (records : List ScrapedData) : List ReviewerInfo :=
  firstOccurrences (groupReviewers records) []

/-- Key of `max(records, key=...)` (line 625): `len(r.reviewers) if
r.reviewers else 0`, which is just the length. -/
def reviewerCount (r : ScrapedData) : Nat := r.reviewers.length

/-- Python `max` with a key: first element with the maximal key wins. -/
def bestRecord (r : ScrapedData) : List ScrapedData → ScrapedData
  | [] => r
  | x :: xs =>
    if reviewerCount x > reviewerCount r then bestRecord x xs
    else bestRecord r xs

/-- Per-group output (lines 620-644): a singleton group is kept unchanged,
a larger group yields the best record with the merged reviewer list. -/
def mergedOfGroup (records : List ScrapedData) : List ScrapedData :=
  if records.length = 1 then records
  else
    match records with
    | [] => []
    | r :: rs =>
      [{ bestRecord r rs with reviewers := mergeReviewers (r :: rs) }]

/-- `_deduplicate_companies` (lines 602-648). -/
def deduplicate_companies (data : List ScrapedData) : List ScrapedData :=
  if data = [] then data
  else (buildGroups data).flatMap (fun g => mergedOfGroup g.2)

/-- Spec-side merge, from the spec's words: keep the first occurrence of
each signature triple; later reviewers with an already-seen triple are
dropped. -/
def specFirstOccurrence : List ReviewerInfo → List ReviewerInfo
  | [] => []
  | rv :: rest =>
    rv :: specFirstOccurrence (rest.filter (fun x => signature x ≠ signature rv))
termination_by l => l.length
decreasing_by
  exact Nat.lt_succ_of_le (List.length_filter_le _ _)

/-- Keep-first deduplication of a key list (first-appearance order). -/
def keepFirsts : List String → List String
  | [] => []
  | k :: rest => k :: keepFirsts (rest.filter (fun x => x ≠ k))
termination_by l => l.length
decreasing_by
  exact Nat.lt_succ_of_le (List.length_filter_le _ _)

/-! ## `ScrapedData.to_flat_dict_list` (`models.py`, lines 71-125) -/

/-- One flattened export row (the dict built by `to_flat_dict_list`). -/
structure FlatRow where
  category : String
  subcategory : Option String
  scraped_at : Option String
  source_url : Option String
  source_url_review : Option String
  competitor_name : Option String
  competitor_locations : Option String
  reviewer_name : Option String
  reviewer_job_title : Option String
  reviewer_company : Option String
  reviewer_industry : Option String
  reviewer_location : Option String
  reviewer_company_size : Option String
  service_provided : Option String
  project_size : Option String
  project_start_date : Option String
  project_end_date : Option String
  project_score : Option ℚ
  project_score_quality : Option ℚ
  project_score_schedule : Option ℚ
  project_score_cost : Option ℚ
  project_score_willing_to_refer : Option ℚ
deriving DecidableEq, Repr

/-- `self.competitor.name if self.competitor else None`. -/
def competitorNameOf (sd : ScrapedData) : Option String :=
  match sd.competitor with
  | none => none
  | some c => c.name

/-- `', '.join(self.competitor.locations) if self.competitor and
self.competitor.locations else None`. -/
def competitorLocationsOf (sd : ScrapedData) : Option String :=
  match sd.competitor with
  | none => none
  | some c =>
    if c.locations = [] then none
    else some (String.intercalate ", " c.locations)

/-- The single row emitted when `self.reviewers` is empty
(`models.py`, lines 73-96). -/
def emptyReviewerRow (sd : ScrapedData) : FlatRow :=
  { category := sd.category
    subcategory := sd.subcategory
    scraped_at := sd.scraped_at
    source_url := sd.source_url
    source_url_review := sd.source_url_review
    competitor_name := competitorNameOf sd
    competitor_locations := competitorLocationsOf sd
    reviewer_name := none
    reviewer_job_title := none
    reviewer_company := none
    reviewer_industry := none
    reviewer_location := none
    reviewer_company_size := none
    service_provided := none
    project_size := none
    project_start_date := none
    project_end_date := none
    project_score := none
    project_score_quality := none
    project_score_schedule := none
    project_score_cost := none
    project_score_willing_to_refer := none }

/-- The row emitted for one reviewer (`models.py`, lines 100-123);
project fields are guarded by `if reviewer.project else None`. -/
def reviewerRow (sd : ScrapedData) (rv : ReviewerInfo) : FlatRow :=
  { category := sd.category
    subcategory := sd.subcategory
    scraped_at := sd.scraped_at
    source_url := sd.source_url
    source_url_review := sd.source_url_review
    competitor_name := competitorNameOf sd
    competitor_locations := competitorLocationsOf sd
    reviewer_name := rv.name
    reviewer_job_title := rv.job_title
    reviewer_company := rv.company
    reviewer_industry := rv.industry
    reviewer_location := rv.location
    reviewer_company_size := rv.company_size
    service_provided := (rv.project.map ProjectInfo.service_provided).join
    project_size := (rv.project.map ProjectInfo.project_size).join
    project_start_date := (rv.project.map ProjectInfo.start_date).join
    project_end_date := (rv.project.map ProjectInfo.end_date).join
    project_score := (rv.project.map ProjectInfo.score).join
    project_score_quality := (rv.project.map ProjectInfo.score_quality).join
    project_score_schedule := (rv.project.map ProjectInfo.score_schedule).join
    project_score_cost := (rv.project.map ProjectInfo.score_cost).join
    project_score_willing_to_refer :=
      (rv.project.map ProjectInfo.score_willing_to_refer).join }

/-- `ScrapedData.to_flat_dict_list` (`models.py`, lines 71-125). -/
def to_flat_dict_list (sd : ScrapedData) : List FlatRow :=
  if sd.reviewers = [] then [emptyReviewerRow sd]
  else sd.reviewers.map (reviewerRow sd)

/-! ## Review retention guard (`scraper.py`, lines 329-342 and 432-441) -/

/-- Python truthiness of an optional string (`None` and `""` are falsy). -/
def truthyStr : Option String → Bool
  | none => false
  | some s => s ≠ ""

/-- Python truthiness of an optional float (`None` and `0.0` are falsy). -/
def truthyScore : Option ℚ → Bool
  | none => false
  | some q => q ≠ 0

/-- Final stage of `_extract_single_clutch_review` (lines 432-437): the
HTML parsing that assembles the `ReviewerInfo` and `ProjectInfo` for one
review index (lines 349-431) is abstracted as the already-assembled pair;
this definition attaches the project and applies the retention guard
`if reviewer.name or reviewer.company or project.service_provided or
project.score`. -/
def extract_single_clutch_review (rv : ReviewerInfo) (proj : ProjectInfo) :
    Option ReviewerInfo :=
  let reviewer := { rv with project := some proj }
  if truthyStr rv.name || truthyStr rv.company ||
      truthyStr proj.service_provided || truthyScore proj.score then
    some reviewer
  else none

/-- The collection loop of `_extract_reviews` (lines 329-342): per index,
keep the extractor's result only when it returned a reviewer. -/
def extract_reviews (cands : List (ReviewerInfo × ProjectInfo)) :
    List ReviewerInfo :=
  cands.filterMap (fun c => extract_single_clutch_review c.1 c.2)

/-! ## Per-element basic info (`scraper.py`, lines 168-197) -/

/-- Model of `urllib.parse.urljoin('https://clutch.co', href)` for the
href shapes that occur here: empty href resolves to the bare root,
an absolute URL stands alone, otherwise the path is resolved against
the root. -/
def urljoinClutchRoot (href : String) : String :=
  if href = "" then "https://clutch.co"
  else if "http://".data.isPrefixOf href.data
      || "https://".data.isPrefixOf href.data then href
  else if "/".data.isPrefixOf href.data then "https://clutch.co" ++ href
  else "https://clutch.co" ++ "/" ++ href

/-- The `company_info` dict built by `_extract_company_basic_info`
(absent keys are `none`). -/
structure BasicInfo where
  name : Option String := none
  url : Option String := none
  locations : Option (List String) := none
deriving DecidableEq, Repr

/-- `_extract_company_basic_info` (lines 168-197). The CSS selector scan
is abstracted as `nameEl`: `some (text, href)` when one of the ordered
name selectors matched (with the element's text and optional href —
`.get('href', '')` defaults a missing href to `""`), `none` otherwise;
`locations` abstracts the location-text extraction. The function cleans
the name, resolves the URL against the site root, and returns the dict
only when the name is truthy. -/
def extract_company_basic_info (nameEl : Option (String × Option String))
    (locations : Option (List String)) : Option BasicInfo :=
  let info : BasicInfo :=
    match nameEl with
    | none => { locations := locations }
    | some (txt, href) =>
      { name := clean_text (some txt)
        url := some (urljoinClutchRoot (href.getD ""))
        locations := locations }
  match info.name with
  | none => none
  | some n => if n = "" then none else some info

/-! ## `DataCleaner` pattern matchers (`utils.py`, lines 127-197)

Each concrete `re.search` call is modelled directly: a `match…At`
function decides a match anchored at the head (the patterns involved are
deterministic — every greedy quantifier is followed by a character it can
never consume, so no backtracking arises), and a `search…` function scans
start positions left to right, as `re.search` does. -/

/-- Split a leading run of ASCII digits (`\d+` / `\d*`). -/
def takeDigits : List Char → List Char × List Char
  | [] => ([], [])
  | c :: rest =>
    if c.isDigit then
      let p := takeDigits rest
      (c :: p.1, p.2)
    else ([], c :: rest)

/-- Split a leading run of ASCII letters (`[A-Za-z]+`). -/
def takeAlpha : List Char → List Char × List Char
  | [] => ([], [])
  | c :: rest =>
    if c.isAlpha then
      let p := takeAlpha rest
      (c :: p.1, p.2)
    else ([], c :: rest)

/-- Consume a literal character sequence. -/
def matchLit : List Char → List Char → Option (List Char)
  | [], l => some l
  | _ :: _, [] => none
  | c :: cs, x :: xs => if x = c then matchLit cs xs else none

/-- `(\d+)\s*-\s*(\d+)\s*<unit>` anchored at the head; returns the two
digit groups. Used with unit `employee` or `people` (the optional final
`s` of `employees?` does not affect the groups). -/
def matchRangeAt (unit : List Char) (l : List Char) :
    Option (List Char × List Char) :=
  let p := takeDigits l
  if p.1 = [] then none
  else
    match p.2.dropWhile isPySpace with
    | '-' :: r2 =>
      let q := takeDigits (r2.dropWhile isPySpace)
      if q.1 = [] then none
      else
        match matchLit unit (q.2.dropWhile isPySpace) with
        | some _ => some (p.1, q.1)
        | none => none
    | _ => none

/-- `(\d+)\+?\s*<unit>` anchored at the head; the plus sign is optional
in the source pattern (consumed when present). Returns the digit
group. -/
def matchPlusAt (unit : List Char) (l : List Char) : Option (List Char) :=
  let p := takeDigits l
  if p.1 = [] then none
  else
    let r := if p.2.head? = some '+' then p.2.tail else p.2
    match matchLit unit (r.dropWhile isPySpace) with
    | some _ => some p.1
    | none => none

/-- `re.search` for the range pattern: leftmost match wins. -/
def searchRange (unit : List Char) : List Char → Option (List Char × List Char)
  | [] => none
  | c :: rest =>
    match matchRangeAt unit (c :: rest) with
    | some g => some g
    | none => searchRange unit rest

/-- `re.search` for the plus pattern: leftmost match wins. -/
def searchPlus (unit : List Char) : List Char → Option (List Char)
  | [] => none
  | c :: rest =>
    match matchPlusAt unit (c :: rest) with
    | some g => some g
    | none => searchPlus unit rest

/-- `DataCleaner.parse_employee_count` (`utils.py`, lines 141-163):
lowercase and strip, try the four patterns in order, normalize a match
to `"N-M employees"` / `"N+ employees"`, else fall back to
`clean_text` of the lowered text. -/
def parse_employee_count : Option String → Option String
  | none => none
  | some s =>
    if s = "" then none
    else
      let t := pyStrip (pyLower s.data)
      match searchRange "employee".data t with
      | some g => some (String.mk (g.1 ++ '-' :: g.2 ++ " employees".data))
      | none =>
        match searchPlus "employee".data t with
        | some d => some (String.mk (d ++ "+ employees".data))
        | none =>
          match searchRange "people".data t with
          | some g => some (String.mk (g.1 ++ '-' :: g.2 ++ " employees".data))
          | none =>
            match searchPlus "people".data t with
            | some d => some (String.mk (d ++ "+ employees".data))
            | none => clean_text (some (String.mk t))

/-- Spec-side plus matcher, from the claim's words: the pattern
`"N+ employees"` / `"N+ people"` with a MANDATORY plus sign (the source
pattern `(\d+)\+?\s*employees?` makes it optional — this definition is
the comparison point, not the code). -/
def matchPlusReqAt (unit : List Char) (l : List Char) : Option (List Char) :=
  let p := takeDigits l
  if p.1 = [] then none
  else
    match p.2 with
    | '+' :: t =>
      match matchLit unit (t.dropWhile isPySpace) with
      | some _ => some p.1
      | none => none
    | _ => none

/-- Spec-side search for the mandatory-plus pattern. -/
def searchPlusReq (unit : List Char) : List Char → Option (List Char)
  | [] => none
  | c :: rest =>
    match matchPlusReqAt unit (c :: rest) with
    | some g => some g
    | none => searchPlusReq unit rest

/-- Spec-side recognizer, from the claim's words: does the input
(case-insensitively) contain one of `"N-M employees"`, `"N+ employees"`,
`"N-M people"`, `"N+ people"`? -/
def specEmployeePatternMatch (s : String) : Bool :=
  let t := pyStrip (pyLower s.data)
  (searchRange "employee".data t).isSome
    || (searchPlusReq "employee".data t).isSome
    || (searchRange "people".data t).isSome
    || (searchPlusReq "people".data t).isSome

/-- `(\d+\.?\d*)` anchored at the head. -/
def matchNumberAt (l : List Char) : Option (List Char) :=
  let p := takeDigits l
  if p.1 = [] then none
  else
    match p.2 with
    | '.' :: r2 => some (p.1 ++ '.' :: (takeDigits r2).1)
    | _ => some p.1

/-- `re.search(r'(\d+\.?\d*)', ·)`. -/
def searchNumber : List Char → Option (List Char)
  | [] => none
  | c :: rest =>
    match matchNumberAt (c :: rest) with
    | some g => some g
    | none => searchNumber rest

/-- Numeric value of a digit run. -/
def digitsVal (ds : List Char) : Nat :=
  ds.foldl (fun n c => n * 10 + (c.toNat - 48)) 0

/-- Model of Python `float()` restricted to the shapes the number regex
can produce: digits optionally followed by `.` and more digits; anything
else fails (a `ValueError`). -/
def pyFloat (l : List Char) : Option ℚ :=
  let p := takeDigits l
  match p.2 with
  | [] => if p.1 = [] then none else some (digitsVal p.1)
  | '.' :: r2 =>
    let q := takeDigits r2
    if q.2 = [] && !(p.1 = [] && q.1 = []) then
      some ((digitsVal p.1 : ℚ) + digitsVal q.1 / 10 ^ q.1.length)
    else none
  | _ => none

/-- The `float(...)` call of `extract_number_from_text` as a raising
operation. -/
def pyFloatE (l : List Char) : Except String ℚ :=
  match pyFloat l with
  | some v => Except.ok v
  | none => Except.error "ValueError"

/-- `DataCleaner.extract_number_from_text` (`utils.py`, lines 127-139)
with the raising `float` call visible: the `try/except ValueError`
around it turns a parse failure into `None`. -/
def extract_number_from_textE : Option String → Except String (Option ℚ)
  | none => Except.ok none
  | some s =>
    if s = "" then Except.ok none
    else
      match searchNumber s.data with
      | none => Except.ok none
      | some g =>
        match pyFloatE g with
        | Except.ok v => Except.ok (some v)
        | Except.error _ => Except.ok none

/-- `DataCleaner.extract_number_from_text`, exception-free view. -/
def extract_number_from_text (o : Option String) : Option ℚ :=
  match extract_number_from_textE o with
  | Except.ok v => v
  | Except.error _ => none

/-- Dash alternatives `[-–—]` of the date-range pattern. -/
def isDashChar (c : Char) : Bool := c = '-' || c = '–' || c = '—'

/-- `[A-Za-z]+ \d{4}` anchored at the head; returns the matched chars
and the rest. -/
def matchMonthYearAt (l : List Char) : Option (List Char × List Char) :=
  let p := takeAlpha l
  if p.1 = [] then none
  else
    match p.2 with
    | ' ' :: a :: b :: c :: d :: r3 =>
      if a.isDigit && b.isDigit && c.isDigit && d.isDigit then
        some (p.1 ++ ' ' :: [a, b, c, d], r3)
      else none
    | _ => none

/-- `([A-Za-z]+ \d{4})\s*[-–—]\s*([A-Za-z]+ \d{4})` anchored at the
head; returns the two groups. -/
def matchDateRangeAt (l : List Char) : Option (List Char × List Char) :=
  match matchMonthYearAt l with
  | none => none
  | some (g1, r1) =>
    match r1.dropWhile isPySpace with
    | d :: r2 =>
      if isDashChar d then
        match matchMonthYearAt (r2.dropWhile isPySpace) with
        | none => none
        | some (g2, _) => some (g1, g2)
      else none
    | [] => none

/-- `re.search` for the full date-range pattern. -/
def searchDateRange : List Char → Option (List Char × List Char)
  | [] => none
  | c :: rest =>
    match matchDateRangeAt (c :: rest) with
    | some g => some g
    | none => searchDateRange rest

/-- `re.search` for the single `([A-Za-z]+ \d{4})` pattern. -/
def searchMonthYear : List Char → Option (List Char)
  | [] => none
  | c :: rest =>
    match matchMonthYearAt (c :: rest) with
    | some g => some g.1
    | none => searchMonthYear rest

/-- `DataCleaner.parse_date_range` (`utils.py`, lines 165-182). -/
def parse_date_range : Option String → Option String × Option String
  | none => (none, none)
  | some s =>
    if s = "" then (none, none)
    else
      match searchDateRange s.data with
      | some g => (some (String.mk g.1), some (String.mk g.2))
      | none =>
        match searchMonthYear s.data with
        | some g => (some (String.mk g), none)
        | none => (none, none)

/-- `[\d,]` character class of the money pattern. -/
def isDigitComma (c : Char) : Bool := c.isDigit || c = ','

/-- `\$[\d,]+(?:\s*-\s*\$[\d,]+)?` anchored at the head; returns the
whole matched span (`group(0)`), spaces included. -/
def matchMoneyAt (l : List Char) : Option (List Char) :=
  match l with
  | '$' :: r1 =>
    let d1 := r1.takeWhile isDigitComma
    if d1 = [] then none
    else
      let r2 := r1.dropWhile isDigitComma
      let sp1 := r2.takeWhile isPySpace
      match r2.dropWhile isPySpace with
      | '-' :: r3 =>
        let sp2 := r3.takeWhile isPySpace
        match r3.dropWhile isPySpace with
        | '$' :: r4 =>
          let d2 := r4.takeWhile isDigitComma
          if d2 = [] then some ('$' :: d1)
          else some ('$' :: d1 ++ sp1 ++ '-' :: sp2 ++ '$' :: d2)
        | _ => some ('$' :: d1)
      | _ => some ('$' :: d1)
  | _ => none

/-- `re.search` for the money pattern. -/
def searchMoney : List Char → Option (List Char)
  | [] => none
  | c :: rest =>
    match matchMoneyAt (c :: rest) with
    | some g => some g
    | none => searchMoney rest

/-- `DataCleaner.parse_project_size` (`utils.py`, lines 184-197). -/
def parse_project_size : Option String → Option String
  | none => none
  | some s =>
    if s = "" then none
    else
      let t := pyStrip s.data
      match searchMoney t with
      | some g => some (String.mk g)
      | none => clean_text (some (String.mk t))

/-! ## The `retry` decorator (`utils.py`, lines 92-111) -/

/-- One attempt of the wrapped operation: it either returns a value or
raises. -/
inductive Outcome (E A : Type) where
  | ok (a : A)
  | err (e : E)
deriving DecidableEq, Repr

/-- The retry loop of the `retry` decorator, from attempt index `i` with
`rem + 1` attempts remaining (`utils.py`, lines 97-106): a success
returns immediately; a failure on the last attempt re-raises; an earlier
failure sleeps `delay * (attempt + 1)` and retries. Returns the outcome
(`none` models falling through a zero-attempt loop to `return None`)
together with the list of backoff sleeps performed. -/
def retryAux (f : Nat → Outcome E A) (delay : ℚ) :
    Nat → Nat → Option (Except E A) × List ℚ
  | _, 0 => (none, [])
  | i, rem + 1 =>
    match f i with
    | Outcome.ok a => (some (Except.ok a), [])
    | Outcome.err e =>
      if rem = 0 then (some (Except.error e), [])
      else
        let r := retryAux f delay (i + 1) rem
        (r.1, delay * (i + 1) :: r.2)

/-- The `retry(max_attempts, delay)` wrapper applied to an operation whose
attempt-indexed behaviour is `f`. -/
def retryRun (maxAttempts : Nat) (delay : ℚ) (f : Nat → Outcome E A) :
    Option (Except E A) × List ℚ :=
  retryAux f delay 0 maxAttempts

/-! ## Concrete instances used in counterexamples and witnesses -/

/-- An all-empty reviewer. -/
def rvBlank : ReviewerInfo := {}

/-- A named reviewer. -/
def rvX : ReviewerInfo := { name := some "x", job_title := some "t" }

/-- Another named reviewer. -/
def rvZ : ReviewerInfo := { name := some "z", company := some "c" }

/-- One record named "a" carrying the same blank reviewer twice. -/
def recSoloDup : ScrapedData :=
  { competitor := some { name := some "a" }, reviewers := [rvBlank, rvBlank] }

/-- A record whose competitor name is absent. -/
def recNoName : ScrapedData :=
  { competitor := some { name := none }, reviewers := [rvX] }

/-- Record "A" with one reviewer. -/
def recUpperA : ScrapedData :=
  { competitor := some { name := some "A" }, reviewers := [rvX] }

/-- Record "a" sharing reviewer `rvX` with `recUpperA` and adding `rvZ`. -/
def recLowerA : ScrapedData :=
  { competitor := some { name := some "a" }, reviewers := [rvX, rvZ] }

/-! ## Deduplicator lemmas -/

/-- The invariant of the grouping dict: every group is nonempty, and
every record in a group has that group's key. -/
def GroupsInv (gs : List (String × List ScrapedData)) : Prop :=
  ∀ p ∈ gs, p.2 ≠ [] ∧ ∀ r ∈ p.2, recordKey r = some p.1

theorem addToGroups_inv {gs k r} (hinv : GroupsInv gs)
    (hk : recordKey r = some k) : GroupsInv (addToGroups gs k r) := by
  induction gs with
  | nil =>
    intro p hp
    simp only [addToGroups, List.mem_singleton] at hp
    subst hp
    exact ⟨by simp, by simpa using hk⟩
  | cons g rest ih =>
    obtain ⟨k', rs⟩ := g
    simp only [addToGroups]
    by_cases hkk : k' = k
    · subst hkk
      simp only [if_pos rfl]
      intro p hp
      rcases List.mem_cons.mp hp with h | h
      · subst h
        refine ⟨by simp, ?_⟩
        intro r' hr'
        rcases List.mem_append.mp hr' with h' | h'
        · exact (hinv (k', rs) (List.mem_cons_self _ _)).2 r' h'
        · simpa using (List.mem_singleton.mp h') ▸ hk
      · exact hinv p (List.mem_cons_of_mem _ h)
    · simp only [if_neg hkk]
      intro p hp
      rcases List.mem_cons.mp hp with h | h
      · exact h ▸ hinv (k', rs) (List.mem_cons_self _ _)
      · exact ih (fun q hq => hinv q (List.mem_cons_of_mem _ hq)) p h

theorem buildGroupsFrom_inv {gs} (l : List ScrapedData)
    (hinv : GroupsInv gs) : GroupsInv (buildGroupsFrom gs l) := by
  induction l generalizing gs with
  | nil => exact hinv
  | cons r rest ih =>
    simp only [buildGroupsFrom]
    cases hk : recordKey r with
    | none => exact ih hinv
    | some k => exact ih (addToGroups_inv hinv hk)

theorem buildGroups_inv (data : List ScrapedData) :
    GroupsInv (buildGroups data) :=
  buildGroupsFrom_inv data (by intro p hp; simp at hp)

theorem addToGroups_keys (gs : List (String × List ScrapedData)) (k : String)
    (r : ScrapedData) :
    (addToGroups gs k r).map Prod.fst =
      if k ∈ gs.map Prod.fst then gs.map Prod.fst
      else gs.map Prod.fst ++ [k] := by
  induction gs with
  | nil => simp [addToGroups]
  | cons g rest ih =>
    obtain ⟨k', rs⟩ := g
    simp only [addToGroups]
    by_cases hkk : k' = k
    · subst hkk
      simp
    · simp only [if_neg hkk, List.map_cons, ih]
      by_cases hm : k ∈ rest.map Prod.fst
      · rw [if_pos hm, if_pos (by simp [hm])]
      · rw [if_neg hm, if_neg (by simp [hm, Ne.symm hkk])]
        rfl

theorem keepFirsts_subset : ∀ l, keepFirsts l ⊆ l := by
  intro l
  induction l using keepFirsts.induct with
  | case1 => simp [keepFirsts]
  | case2 k rest ih =>
    rw [keepFirsts]
    intro x hx
    rcases List.mem_cons.mp hx with h | h
    · exact h ▸ List.mem_cons_self _ _
    · exact List.mem_cons_of_mem _ (List.mem_of_mem_filter (ih h))

theorem keepFirsts_nodup : ∀ l, (keepFirsts l).Nodup := by
  intro l
  induction l using keepFirsts.induct with
  | case1 => simp [keepFirsts]
  | case2 k rest ih =>
    rw [keepFirsts]
    refine List.nodup_cons.mpr ⟨?_, ih⟩
    intro hk
    have := keepFirsts_subset _ hk
    simp at this

theorem buildGroupsFrom_keys (l : List ScrapedData) :
    ∀ gs, (buildGroupsFrom gs l).map Prod.fst =
      gs.map Prod.fst ++
        keepFirsts ((l.filterMap recordKey).filter
          (fun x => decide (x ∉ gs.map Prod.fst))) := by
  induction l with
  | nil => intro gs; simp [buildGroupsFrom, keepFirsts]
  | cons r rest ih =>
    intro gs
    simp only [buildGroupsFrom]
    cases hk : recordKey r with
    | none => simpa [List.filterMap_cons, hk] using ih gs
    | some k =>
      rw [show (r :: rest).filterMap recordKey = k :: rest.filterMap recordKey
        by simp [List.filterMap_cons, hk]]
      by_cases hm : k ∈ gs.map Prod.fst
      · rw [ih (addToGroups gs k r), addToGroups_keys, if_pos hm]
        congr 2
        simp [List.filter_cons, hm]
      · rw [ih (addToGroups gs k r), addToGroups_keys, if_neg hm]
        rw [List.filter_cons_of_pos (by simp [hm])]
        rw [keepFirsts]
        have hff : ((rest.filterMap recordKey).filter
              (fun x => decide (x ∉ gs.map Prod.fst))).filter
              (fun x => decide (x ≠ k))
            = (rest.filterMap recordKey).filter
              (fun x => decide (x ∉ gs.map Prod.fst ++ [k])) := by
          rw [List.filter_filter]
          apply List.filter_congr
          intro x _
          by_cases hxk : x = k
          · subst hxk; simp
          · by_cases hxg : x ∈ gs.map Prod.fst <;> simp [hxk, hxg]
        rw [hff]
        simp

theorem bestRecord_mem (xs : List ScrapedData) (r : ScrapedData) :
    bestRecord r xs ∈ r :: xs := by
  induction xs generalizing r with
  | nil => simp [bestRecord]
  | cons x xs ih =>
    simp only [bestRecord]
    by_cases h : reviewerCount x > reviewerCount r
    · rw [if_pos h]
      exact List.mem_cons_of_mem _ (ih x)
    · rw [if_neg h]
      rcases List.mem_cons.mp (ih r) with h' | h'
      · rw [h']
        exact List.mem_cons_self _ _
      · exact List.mem_cons_of_mem _ (List.mem_cons_of_mem _ h')

theorem recordKey_set_reviewers (r : ScrapedData) (rvs : List ReviewerInfo) :
    recordKey { r with reviewers := rvs } = recordKey r := rfl

theorem mergedOfGroup_spec {k : String} {rs : List ScrapedData}
    (hne : rs ≠ []) (hk : ∀ r ∈ rs, recordKey r = some k) :
    ∃ r, mergedOfGroup rs = [r] ∧ recordKey r = some k := by
  unfold mergedOfGroup
  by_cases h1 : rs.length = 1
  · rw [if_pos h1]
    match rs, h1 with
    | [r], _ => exact ⟨r, rfl, hk r (List.mem_singleton.mpr rfl)⟩
  · rw [if_neg h1]
    match rs, hne with
    | r :: rest, _ =>
      refine ⟨_, rfl, ?_⟩
      rw [recordKey_set_reviewers]
      exact hk _ (bestRecord_mem rest r)

theorem flatMerged_map_key (gs : List (String × List ScrapedData))
    (hinv : GroupsInv gs) :
    (gs.flatMap (fun g => mergedOfGroup g.2)).map recordKey
      = gs.map (fun g => some g.1) := by
  induction gs with
  | nil => simp
  | cons g rest ih =>
    obtain ⟨hne, hk⟩ := hinv g (List.mem_cons_self _ _)
    obtain ⟨r, hr, hrk⟩ := mergedOfGroup_spec hne hk
    simp only [List.flatMap_cons, List.map_append, hr, List.map_cons,
      List.map_nil, hrk, List.map_cons]
    rw [ih (fun q hq => hinv q (List.mem_cons_of_mem _ hq))]
    rfl

/-- The keys of `buildGroups` are the normalized names of the input, in
first-appearance order. -/
theorem buildGroups_keys (data : List ScrapedData) :
    (buildGroups data).map Prod.fst = keepFirsts (data.filterMap recordKey) := by
  rw [buildGroups, buildGroupsFrom_keys]
  simp

/-- The keys of the deduplicated output, in order. -/
theorem dedup_map_recordKey (data : List ScrapedData) :
    (deduplicate_companies data).map recordKey
      = (keepFirsts (data.filterMap recordKey)).map some := by
  by_cases hd : data = []
  · subst hd
    simp [deduplicate_companies, keepFirsts]
  · rw [deduplicate_companies, if_neg hd,
      flatMerged_map_key _ (buildGroups_inv data), ← buildGroups_keys]
    simp

theorem addToGroups_of_not_mem {gs : List (String × List ScrapedData)}
    {k : String} (r : ScrapedData) (h : k ∉ gs.map Prod.fst) :
    addToGroups gs k r = gs ++ [(k, [r])] := by
  induction gs with
  | nil => simp [addToGroups]
  | cons g rest ih =>
    obtain ⟨k', rs⟩ := g
    simp only [addToGroups]
    have hkk : k' ≠ k := by
      intro hh
      exact h (by simp [hh])
    rw [if_neg hkk, ih (fun hm => h (by simp [hm]))]
    rfl

/-- When the incoming records carry pairwise distinct keys, all fresh
w.r.t. the accumulated dict, grouping just appends singleton groups. -/
theorem buildGroupsFrom_of_fresh :
    ∀ (l : List ScrapedData) (gs : List (String × List ScrapedData)),
      (l.filterMap recordKey).Nodup →
      (∀ k ∈ l.filterMap recordKey, k ∉ gs.map Prod.fst) →
      buildGroupsFrom gs l =
        gs ++ l.filterMap (fun r => (recordKey r).map (fun k => (k, [r]))) := by
  intro l
  induction l with
  | nil => intro gs _ _; simp [buildGroupsFrom]
  | cons r rest ih =>
    intro gs hnd hfresh
    simp only [buildGroupsFrom]
    cases hk : recordKey r with
    | none =>
      simp only [List.filterMap_cons, hk] at hnd hfresh ⊢
      exact ih gs hnd hfresh
    | some k =>
      simp only [List.filterMap_cons, hk, Option.map_some'] at hnd hfresh ⊢
      have hkgs : k ∉ gs.map Prod.fst :=
        hfresh k (List.mem_cons_self _ _)
      rw [addToGroups_of_not_mem r hkgs]
      rw [ih (gs ++ [(k, [r])]) (List.nodup_cons.mp hnd).2 ?_]
      · simp
      · intro k' hk'
        simp only [List.map_append, List.mem_append]
        rintro (h | h)
        · exact hfresh k' (List.mem_cons_of_mem _ hk') h
        · simp only [List.map_cons, List.map_nil, List.mem_singleton] at h
          exact (List.nodup_cons.mp hnd).1 (h ▸ hk')

/-- Flattening singleton groups of records whose keys are all present
returns the records unchanged. -/
theorem flatMerged_of_singletons :
    ∀ l : List ScrapedData, (∀ r ∈ l, (recordKey r).isSome) →
      ((l.filterMap (fun r => (recordKey r).map (fun k => (k, [r])))).flatMap
        (fun g => mergedOfGroup g.2)) = l := by
  intro l
  induction l with
  | nil => simp
  | cons r rest ih =>
    intro hall
    cases hk : recordKey r with
    | none =>
      have := hall r (List.mem_cons_self _ _)
      rw [hk] at this
      simp at this
    | some k =>
      simp only [List.filterMap_cons, hk, Option.map_some', List.flatMap_cons]
      rw [ih (fun q hq => hall q (List.mem_cons_of_mem _ hq))]
      simp [mergedOfGroup]

theorem map_eq_map_some_filterMap :
    ∀ (l : List ScrapedData) (ks : List String),
      l.map recordKey = ks.map some → l.filterMap recordKey = ks := by
  intro l
  induction l with
  | nil =>
    intro ks h
    cases ks with
    | nil => simp
    | cons k ks => simp at h
  | cons r rest ih =>
    intro ks h
    cases ks with
    | nil => simp at h
    | cons k ks =>
      simp only [List.map_cons, List.cons.injEq] at h
      simp only [List.filterMap_cons, h.1]
      rw [ih ks h.2]

/-- A list of records with pairwise distinct, present keys is a fixed
point of the deduplicator. -/
theorem dedup_of_unique (l : List ScrapedData)
    (hall : ∀ r ∈ l, (recordKey r).isSome)
    (hnd : (l.filterMap recordKey).Nodup) :
    deduplicate_companies l = l := by
  by_cases hd : l = []
  · rw [hd]
    rfl
  · rw [deduplicate_companies, if_neg hd, buildGroups,
      buildGroupsFrom_of_fresh l [] hnd (by simp)]
    simpa using flatMerged_of_singletons l hall

/-! ## First-occurrence merge lemmas -/

theorem firstOccurrences_eq_spec :
    ∀ (l : List ReviewerInfo) (seen : List (String × String × String)),
      firstOccurrences l seen =
        specFirstOccurrence (l.filter (fun x => decide (signature x ∉ seen))) := by
  intro l
  induction l with
  | nil => intro seen; simp [firstOccurrences, specFirstOccurrence]
  | cons rv rest ih =>
    intro seen
    simp only [firstOccurrences]
    by_cases hs : signature rv ∈ seen
    · rw [if_pos hs, List.filter_cons_of_neg (by simpa using hs)]
      exact ih seen
    · rw [if_neg hs, List.filter_cons_of_pos (by simpa using hs)]
      rw [specFirstOccurrence, List.filter_filter]
      rw [ih (signature rv :: seen)]
      congr 1
      congr 1
      apply List.filter_congr
      intro x _
      by_cases h1 : signature x = signature rv
      · simp [h1]
      · by_cases h2 : signature x ∈ seen <;> simp [h1, h2]

theorem specFirstOccurrence_sublist :
    ∀ l : List ReviewerInfo, (specFirstOccurrence l).Sublist l := by
  intro l
  induction l using specFirstOccurrence.induct with
  | case1 => simp [specFirstOccurrence]
  | case2 rv rest ih =>
    rw [specFirstOccurrence]
    exact List.Sublist.cons₂ rv (ih.trans (List.filter_sublist rest))

theorem specFirstOccurrence_sig_nodup :
    ∀ l : List ReviewerInfo,
      ((specFirstOccurrence l).map signature).Nodup := by
  intro l
  induction l using specFirstOccurrence.induct with
  | case1 => simp [specFirstOccurrence]
  | case2 rv rest ih =>
    rw [specFirstOccurrence]
    simp only [List.map_cons]
    refine List.nodup_cons.mpr ⟨?_, ih⟩
    intro hmem
    obtain ⟨x, hx, hsig⟩ := List.mem_map.mp hmem
    have := (specFirstOccurrence_sublist _).subset hx
    have := List.of_mem_filter this
    simp [hsig] at this

theorem specFirstOccurrence_complete :
    ∀ l : List ReviewerInfo, ∀ rv ∈ l,
      ∃ rv' ∈ specFirstOccurrence l, signature rv' = signature rv := by
  intro l
  induction l using specFirstOccurrence.induct with
  | case1 => simp
  | case2 hd rest ih =>
    intro rv hrv
    rw [specFirstOccurrence]
    rcases List.mem_cons.mp hrv with h | h
    · exact ⟨hd, List.mem_cons_self _ _, by rw [h]⟩
    · by_cases hsig : signature rv = signature hd
      · exact ⟨hd, List.mem_cons_self _ _, hsig.symm⟩
      · obtain ⟨rv', hrv', hs'⟩ :=
          ih rv (List.mem_filter.mpr ⟨h, by simpa using hsig⟩)
        exact ⟨rv', List.mem_cons_of_mem _ hrv', hs'⟩

theorem mergeReviewers_eq_spec (records : List ScrapedData) :
    mergeReviewers records = specFirstOccurrence (groupReviewers records) := by
  rw [mergeReviewers, firstOccurrences_eq_spec]
  congr 1
  simp

theorem buildGroupsFrom_filter :
    ∀ (l : List ScrapedData) (gs : List (String × List ScrapedData)),
      buildGroupsFrom gs l =
        buildGroupsFrom gs (l.filter (fun r => (recordKey r).isSome)) := by
  intro l
  induction l with
  | nil => intro gs; rfl
  | cons r rest ih =>
    intro gs
    simp only [buildGroupsFrom, List.filter_cons]
    cases hk : recordKey r with
    | none => simpa [hk] using ih gs
    | some k =>
      simp only [hk, Option.isSome_some, if_pos]
      simp only [buildGroupsFrom, hk]
      exact ih (addToGroups gs k r)

/-! ## Claim theorems -/

/-- C1, counterexample: the claim fails on singleton groups. The single
record named "a" forms a group by itself in `buildGroups`, its reviewer
list contains the same signature twice, yet the deduplicator keeps it
unchanged instead of keeping only the first occurrence of the
(name, company, job_title) triple. -/
theorem dedup_merge_singleton_counterexample :
    buildGroups [recSoloDup] = [("a", [recSoloDup])] ∧
    deduplicate_companies [recSoloDup] = [recSoloDup] ∧
    recSoloDup.reviewers = [rvBlank, rvBlank] ∧
    specFirstOccurrence (groupReviewers [recSoloDup]) = [rvBlank] ∧
    ([rvBlank, rvBlank] : List ReviewerInfo) ≠ [rvBlank] := by
  refine ⟨by decide, by decide, rfl, ?_, by decide⟩
  show specFirstOccurrence [rvBlank, rvBlank] = [rvBlank]
  rw [specFirstOccurrence]
  norm_num [signature, rvBlank, specFirstOccurrence]

/-- C1, amended: for every group of two or more records built by the
deduplicator over records whose competitor names normalize to the same
key, the output contains a record whose merged reviewer list is obtained
by scanning all the group's reviewers in original input order and keeping
exactly the first occurrence of each (name-or-empty, company-or-empty,
job_title-or-empty) triple: the merged list is an order-preserving
subselection, its triples are pairwise distinct, and every input
reviewer's triple is represented, regardless of which source record
contributed it. -/
theorem dedup_merge_uses_first_occurrence
    (data : List ScrapedData) (k : String) (records : List ScrapedData)
    (hmem : (k, records) ∈ buildGroups data) (h2 : 2 ≤ records.length) :
    ∃ r ∈ deduplicate_companies data,
      r.reviewers = specFirstOccurrence (groupReviewers records) ∧
      r.reviewers.Sublist (groupReviewers records) ∧
      (r.reviewers.map signature).Nodup ∧
      ∀ rv ∈ groupReviewers records,
        ∃ rv' ∈ r.reviewers, signature rv' = signature rv := by
  have hdata : data ≠ [] := by
    intro h
    subst h
    simp [buildGroups, buildGroupsFrom] at hmem
  have hlen1 : records.length ≠ 1 := by omega
  obtain ⟨r0, rs, hrec⟩ : ∃ r0 rs, records = r0 :: rs := by
    cases records with
    | nil => simp at h2
    | cons a b => exact ⟨a, b, rfl⟩
  subst hrec
  have hmg : mergedOfGroup (r0 :: rs) =
      [{ bestRecord r0 rs with reviewers := mergeReviewers (r0 :: rs) }] := by
    rw [mergedOfGroup, if_neg hlen1]
  refine ⟨{ bestRecord r0 rs with reviewers := mergeReviewers (r0 :: rs) },
    ?_, ?_, ?_, ?_, ?_⟩
  · rw [deduplicate_companies, if_neg hdata]
    exact List.mem_flatMap.mpr
      ⟨(k, r0 :: rs), hmem, by rw [hmg]; exact List.mem_singleton.mpr rfl⟩
  · exact mergeReviewers_eq_spec (r0 :: rs)
  · rw [mergeReviewers_eq_spec]
    exact specFirstOccurrence_sublist _
  · rw [mergeReviewers_eq_spec]
    exact specFirstOccurrence_sig_nodup _
  · intro rv hrv
    rw [mergeReviewers_eq_spec]
    exact specFirstOccurrence_complete _ rv hrv

/-- C1, witness: two records named "A" and "a" form one group; the
merged output keeps `rvX` once and `rvZ`. -/
theorem dedup_merge_uses_first_occurrence_witness :
    ∃ r ∈ deduplicate_companies [recUpperA, recLowerA],
      r.reviewers = specFirstOccurrence (groupReviewers [recUpperA, recLowerA]) ∧
      r.reviewers.Sublist (groupReviewers [recUpperA, recLowerA]) ∧
      (r.reviewers.map signature).Nodup ∧
      ∀ rv ∈ groupReviewers [recUpperA, recLowerA],
        ∃ rv' ∈ r.reviewers, signature rv' = signature rv :=
  dedup_merge_uses_first_occurrence [recUpperA, recLowerA] "a"
    [recUpperA, recLowerA] (by decide) (by decide)

/-- C2: after deduplication, the surviving records' normalized
competitor-name keys are exactly the distinct normalized names of the
input in order of first appearance (hence one merged record per distinct
normalized name), and they are pairwise distinct. -/
theorem dedup_output_names_unique_ordered (data : List ScrapedData) :
    (deduplicate_companies data).map recordKey
      = (keepFirsts (data.filterMap recordKey)).map some ∧
    ((deduplicate_companies data).map recordKey).Nodup := by
  refine ⟨dedup_map_recordKey data, ?_⟩
  rw [dedup_map_recordKey data]
  exact (keepFirsts_nodup _).map (Option.some_injective _)

/-- C3, counterexample: a record whose competitor name is absent is not
passed through unmodified — the deduplicator drops it from the output
entirely. -/
theorem dedup_nameless_passthrough_counterexample :
    deduplicate_companies [recNoName] = [] ∧
    ([] : List ScrapedData) ≠ [recNoName] := by
  refine ⟨by decide, by decide⟩

/-- C3, amended: records whose competitor name is absent are never
merged with any other record — they do not influence the output at all —
and they are dropped from the deduplicator's output entirely (every
surviving record has a present competitor-name key). -/
theorem dedup_nameless_records_dropped (data : List ScrapedData) :
    deduplicate_companies data
      = deduplicate_companies (data.filter (fun r => (recordKey r).isSome)) ∧
    ∀ r ∈ deduplicate_companies data, (recordKey r).isSome := by
  constructor
  · have hbg : buildGroups data
        = buildGroups (data.filter (fun r => (recordKey r).isSome)) :=
      buildGroupsFrom_filter data []
    by_cases hd : data = []
    · subst hd
      rfl
    · by_cases hf : data.filter (fun r => (recordKey r).isSome) = []
      · rw [deduplicate_companies, if_neg hd, hbg, hf]
        rfl
      · rw [deduplicate_companies, if_neg hd, hbg]
        conv_rhs => rw [deduplicate_companies, if_neg hf]
  · intro r hr
    have : recordKey r ∈ (deduplicate_companies data).map recordKey :=
      List.mem_map_of_mem _ hr
    rw [dedup_map_recordKey data] at this
    obtain ⟨k, _, hk⟩ := List.mem_map.mp this
    rw [← hk]
    rfl

/-- C3, witness: concrete instance with one nameless and one named
record. -/
theorem dedup_nameless_records_dropped_witness :
    deduplicate_companies [recNoName, recUpperA]
      = deduplicate_companies
          ([recNoName, recUpperA].filter (fun r => (recordKey r).isSome)) ∧
    (recordKey recUpperA).isSome :=
  ⟨(dedup_nameless_records_dropped [recNoName, recUpperA]).1,
   (dedup_nameless_records_dropped [recNoName, recUpperA]).2 recUpperA
     (by decide)⟩

/-- C4: deduplication is idempotent — applying the deduplicator to its
own output returns the output unchanged, same records in the same
order. -/
theorem dedup_idempotent (data : List ScrapedData) :
    deduplicate_companies (deduplicate_companies data)
      = deduplicate_companies data := by
  apply dedup_of_unique
  · intro r hr
    have : recordKey r ∈ (deduplicate_companies data).map recordKey :=
      List.mem_map_of_mem _ hr
    rw [dedup_map_recordKey data] at this
    obtain ⟨k, _, hk⟩ := List.mem_map.mp this
    rw [← hk]
    rfl
  · rw [map_eq_map_some_filterMap _ _ (dedup_map_recordKey data)]
    exact keepFirsts_nodup _

/-- C5: `to_flat_dict_list` returns exactly one row with all
reviewer/project fields absent when there are no reviewers, and exactly
one row per reviewer in list order otherwise, all rows sharing the
record's category, subcategory and competitor fields. -/
theorem to_flat_dict_list_rows (sd : ScrapedData) :
    (sd.reviewers = [] →
      to_flat_dict_list sd = [emptyReviewerRow sd] ∧
      ∀ row ∈ to_flat_dict_list sd,
        row.reviewer_name = none ∧ row.reviewer_job_title = none ∧
        row.reviewer_company = none ∧ row.reviewer_industry = none ∧
        row.reviewer_location = none ∧ row.reviewer_company_size = none ∧
        row.service_provided = none ∧ row.project_size = none ∧
        row.project_start_date = none ∧ row.project_end_date = none ∧
        row.project_score = none ∧ row.project_score_quality = none ∧
        row.project_score_schedule = none ∧ row.project_score_cost = none ∧
        row.project_score_willing_to_refer = none) ∧
    (sd.reviewers ≠ [] →
      (to_flat_dict_list sd).length = sd.reviewers.length ∧
      (to_flat_dict_list sd).map FlatRow.reviewer_name
        = sd.reviewers.map ReviewerInfo.name ∧
      (to_flat_dict_list sd).map FlatRow.reviewer_job_title
        = sd.reviewers.map ReviewerInfo.job_title ∧
      (to_flat_dict_list sd).map FlatRow.reviewer_company
        = sd.reviewers.map ReviewerInfo.company ∧
      ∀ row ∈ to_flat_dict_list sd,
        row.category = sd.category ∧ row.subcategory = sd.subcategory ∧
        row.competitor_name = competitorNameOf sd ∧
        row.competitor_locations = competitorLocationsOf sd) := by
  constructor
  · intro h
    rw [to_flat_dict_list, if_pos h]
    refine ⟨rfl, ?_⟩
    intro row hrow
    rw [List.mem_singleton] at hrow
    subst hrow
    exact ⟨rfl, rfl, rfl, rfl, rfl, rfl, rfl, rfl, rfl, rfl, rfl, rfl,
      rfl, rfl, rfl⟩
  · intro h
    rw [to_flat_dict_list, if_neg h]
    refine ⟨by simp, ?_, ?_, ?_, ?_⟩
    · simp [List.map_map, Function.comp_def, reviewerRow]
    · simp [List.map_map, Function.comp_def, reviewerRow]
    · simp [List.map_map, Function.comp_def, reviewerRow]
    · intro row hrow
      obtain ⟨rv, _, hr⟩ := List.mem_map.mp hrow
      subst hr
      exact ⟨rfl, rfl, rfl, rfl⟩

/-- C5, witness: a record with no reviewers and a record with two
reviewers. -/
theorem to_flat_dict_list_rows_witness :
    (to_flat_dict_list ({} : ScrapedData) = [emptyReviewerRow {}] ∧
      ∀ row ∈ to_flat_dict_list ({} : ScrapedData),
        row.reviewer_name = none ∧ row.reviewer_job_title = none ∧
        row.reviewer_company = none ∧ row.reviewer_industry = none ∧
        row.reviewer_location = none ∧ row.reviewer_company_size = none ∧
        row.service_provided = none ∧ row.project_size = none ∧
        row.project_start_date = none ∧ row.project_end_date = none ∧
        row.project_score = none ∧ row.project_score_quality = none ∧
        row.project_score_schedule = none ∧ row.project_score_cost = none ∧
        row.project_score_willing_to_refer = none) ∧
    (to_flat_dict_list { reviewers := [rvX, rvZ] }).length
      = ([rvX, rvZ] : List ReviewerInfo).length :=
  ⟨(to_flat_dict_list_rows {}).1 rfl,
   ((to_flat_dict_list_rows { reviewers := [rvX, rvZ] }).2 (by simp)).1⟩

theorem truthyStr_iff (o : Option String) :
    truthyStr o = true ↔ ∃ s, o = some s ∧ s ≠ "" := by
  cases o <;> simp [truthyStr]

theorem truthyScore_iff (o : Option ℚ) :
    truthyScore o = true ↔ ∃ q, o = some q ∧ q ≠ 0 := by
  cases o <;> simp [truthyScore]

/-- C6: every reviewer retained by the review-extraction loop has at
least one of reviewer name, reviewer company, project service_provided,
project score populated; and an index whose four extracted fields are
all empty yields no result from the single-review extractor, so fully
empty reviewer records never appear in the extracted list. -/
theorem extract_reviews_populated :
    (∀ (cands : List (ReviewerInfo × ProjectInfo)) (rv : ReviewerInfo),
      rv ∈ extract_reviews cands →
        (∃ s, (rv.name = some s ∨ rv.company = some s) ∧ s ≠ "") ∨
        (∃ p, rv.project = some p ∧
          ((∃ s, p.service_provided = some s ∧ s ≠ "") ∨
           (∃ q, p.score = some q)))) ∧
    (∀ (rv : ReviewerInfo) (proj : ProjectInfo),
      (rv.name = none ∨ rv.name = some "") →
      (rv.company = none ∨ rv.company = some "") →
      (proj.service_provided = none ∨ proj.service_provided = some "") →
      proj.score = none →
      extract_single_clutch_review rv proj = none) := by
  constructor
  · intro cands rv hrv
    obtain ⟨c, _, hcr⟩ := List.mem_filterMap.mp hrv
    rw [extract_single_clutch_review] at hcr
    by_cases hguard : (truthyStr c.1.name || truthyStr c.1.company ||
        truthyStr c.2.service_provided || truthyScore c.2.score) = true
    · rw [if_pos hguard] at hcr
      have hrv' : rv = { c.1 with project := some c.2 } :=
        (Option.some.inj hcr).symm
      subst hrv'
      rcases Bool.or_eq_true_iff.mp hguard with h3 | h3
      · rcases Bool.or_eq_true_iff.mp h3 with h2 | h2
        · rcases Bool.or_eq_true_iff.mp h2 with h1 | h1
          · obtain ⟨s, hs, hne⟩ := (truthyStr_iff _).mp h1
            exact Or.inl ⟨s, Or.inl hs, hne⟩
          · obtain ⟨s, hs, hne⟩ := (truthyStr_iff _).mp h1
            exact Or.inl ⟨s, Or.inr hs, hne⟩
        · obtain ⟨s, hs, hne⟩ := (truthyStr_iff _).mp h2
          exact Or.inr ⟨c.2, rfl, Or.inl ⟨s, hs, hne⟩⟩
      · obtain ⟨q, hq, _⟩ := (truthyScore_iff _).mp h3
        exact Or.inr ⟨c.2, rfl, Or.inr ⟨q, hq⟩⟩
    · rw [if_neg hguard] at hcr
      exact absurd hcr (by simp)
  · intro rv proj h1 h2 h3 h4
    rw [extract_single_clutch_review]
    rcases h1 with h1 | h1 <;> rcases h2 with h2 | h2 <;>
      rcases h3 with h3 | h3 <;>
      simp [truthyStr, truthyScore, h1, h2, h3, h4]

/-- C6, witness: a candidate with only a name survives and satisfies
the populated disjunction; the all-empty candidate is rejected. -/
theorem extract_reviews_populated_witness :
    ((∃ s, (({ rvX with project := some {} } : ReviewerInfo).name = some s ∨
        ({ rvX with project := some {} } : ReviewerInfo).company = some s) ∧
        s ≠ "") ∨
      (∃ p, ({ rvX with project := some {} } : ReviewerInfo).project = some p ∧
        ((∃ s, p.service_provided = some s ∧ s ≠ "") ∨
         (∃ q, p.score = some q)))) ∧
    extract_single_clutch_review {} {} = none :=
  ⟨extract_reviews_populated.1 [(rvX, {})] _ (by decide),
   extract_reviews_populated.2 {} {} (Or.inl rfl) (Or.inl rfl)
     (Or.inl rfl) rfl⟩

theorem urljoinClutchRoot_ne_empty (href : String) :
    urljoinClutchRoot href ≠ "" := by
  rw [urljoinClutchRoot]
  by_cases h0 : href = ""
  · rw [if_pos h0]
    decide
  · rw [if_neg h0]
    by_cases h1 : ("http://".data.isPrefixOf href.data
        || "https://".data.isPrefixOf href.data) = true
    · rw [if_pos h1]
      exact h0
    · rw [if_neg h1]
      by_cases h2 : "/".data.isPrefixOf href.data = true
      · rw [if_pos h2]
        intro hc
        have := congrArg String.data hc
        simp [String.data_append] at this
      · rw [if_neg h2]
        intro hc
        have := congrArg String.data hc
        simp [String.data_append] at this

/-- C10: a successful per-element basic-info extraction always carries a
truthy (nonempty) company name together with a URL: whenever a name
element was found, the url field is the anchor's href resolved against
the site root (the bare root when the href is missing), and it is never
empty, so the crawl loop's minimal-record branch for a listing element
with a name but no URL is unreachable for elements processed through
this function. -/
theorem extract_company_basic_info_has_url
    (nameEl : Option (String × Option String))
    (locs : Option (List String)) (info : BasicInfo)
    (h : extract_company_basic_info nameEl locs = some info) :
    (∃ n, info.name = some n ∧ n ≠ "") ∧
    (∃ t href, nameEl = some (t, href) ∧
      info.url = some (urljoinClutchRoot (href.getD ""))) ∧
    truthyStr info.url = true ∧
    urljoinClutchRoot "" = "https://clutch.co" := by
  cases nameEl with
  | none =>
    rw [extract_company_basic_info] at h
    simp at h
  | some p =>
    obtain ⟨t, href⟩ := p
    rw [extract_company_basic_info] at h
    simp only at h
    cases hct : clean_text (some t) with
    | none =>
      rw [hct] at h
      simp at h
    | some n =>
      rw [hct] at h
      have h' : (if n = "" then (none : Option BasicInfo)
          else some { name := some n,
                      url := some (urljoinClutchRoot (href.getD "")),
                      locations := locs }) = some info := h
      clear h
      by_cases hn : n = ""
      · rw [if_pos hn] at h'
        simp at h'
      · rw [if_neg hn] at h'
        have hinfo := Option.some.inj h'
        subst hinfo
        refine ⟨⟨n, rfl, hn⟩,
          ⟨t, href, rfl, rfl⟩, ?_, by decide⟩
        simpa [truthyStr] using urljoinClutchRoot_ne_empty (href.getD "")

/-- C10, witness: a concrete element with a name and a root-relative
href. -/
theorem extract_company_basic_info_has_url_witness :
    (∃ n, (BasicInfo.mk (some "Acme") (some "https://clutch.co/profile/acme")
        none).name = some n ∧ n ≠ "") ∧
    (∃ t href, (some ("Acme", some "/profile/acme") :
        Option (String × Option String)) = some (t, href) ∧
      (BasicInfo.mk (some "Acme") (some "https://clutch.co/profile/acme")
        none).url = some (urljoinClutchRoot (href.getD ""))) ∧
    truthyStr (BasicInfo.mk (some "Acme")
      (some "https://clutch.co/profile/acme") none).url = true ∧
    urljoinClutchRoot "" = "https://clutch.co" :=
  extract_company_basic_info_has_url (some ("Acme", some "/profile/acme"))
    none (BasicInfo.mk (some "Acme") (some "https://clutch.co/profile/acme")
      none) (by decide)

/-! ## Retry lemmas -/

theorem retryAux_success {E A : Type} (f : Nat → Outcome E A) (d : ℚ) :
    ∀ (k i : Nat) (a : A), (∀ j, j < k → ∃ e, f (i + j) = Outcome.err e) →
      f (i + k) = Outcome.ok a → ∀ rem, k < rem →
      retryAux f d i rem = (some (Except.ok a),
        (List.range k).map (fun (j : ℕ) => d * ((i : ℚ) + (j : ℚ) + 1))) := by
  intro k
  induction k with
  | zero =>
    intro i a _ hok rem hrem
    obtain ⟨rem', rfl⟩ : ∃ rem', rem = rem' + 1 := ⟨rem - 1, by omega⟩
    rw [Nat.add_zero] at hok
    simp [retryAux, hok]
  | succ k ih =>
    intro i a herr hok rem hrem
    obtain ⟨rem', rfl⟩ : ∃ rem', rem = rem' + 1 := ⟨rem - 1, by omega⟩
    obtain ⟨e, he⟩ := herr 0 (Nat.succ_pos k)
    rw [Nat.add_zero] at he
    have hrem' : rem' ≠ 0 := by omega
    rw [retryAux, he]
    simp only [if_neg hrem']
    rw [ih (i + 1) a (fun j hj => by
        obtain ⟨e', he'⟩ := herr (j + 1) (by omega)
        exact ⟨e', by rw [show i + 1 + j = i + (j + 1) by omega]; exact he'⟩)
      (by rw [show i + 1 + k = i + (k + 1) by omega]; exact hok)
      rem' (by omega)]
    rw [List.range_succ_eq_map, List.map_cons, List.map_map]
    refine congrArg _ ?_
    refine congrArg₂ _ (by push_cast; ring) ?_
    apply List.map_congr_left
    intro j _
    simp only [Function.comp_apply]
    push_cast
    ring

theorem retryAux_exhaust {E A : Type} (f : Nat → Outcome E A) (d : ℚ) :
    ∀ (n i : Nat) (es : Nat → E), 0 < n →
      (∀ j, j < n → f (i + j) = Outcome.err (es j)) →
      retryAux f d i n = (some (Except.error (es (n - 1))),
        (List.range (n - 1)).map
          (fun (j : ℕ) => d * ((i : ℚ) + (j : ℚ) + 1))) := by
  intro n
  induction n with
  | zero => intro i es h; omega
  | succ n ih =>
    intro i es _ herr
    have h0 := herr 0 (Nat.succ_pos n)
    rw [Nat.add_zero] at h0
    rw [retryAux, h0]
    by_cases hn : n = 0
    · subst hn
      simp
    · simp only [if_neg hn]
      rw [ih (i + 1) (fun j => es (j + 1)) (by omega) (fun j hj => by
        rw [show i + 1 + j = i + (j + 1) by omega]
        exact herr (j + 1) (by omega))]
      have hsub : n - 1 + 1 = n := by omega
      rw [Nat.succ_sub_one, hsub]
      conv_rhs => rw [show n = n - 1 + 1 by omega, List.range_succ_eq_map]
      rw [List.map_cons, List.map_map, hsub]
      refine congrArg _ ?_
      refine congrArg₂ _ (by push_cast; ring) ?_
      apply List.map_congr_left
      intro j _
      simp only [Function.comp_apply]
      push_cast
      ring

/-- C8: under a `max_attempts` budget with base delay `d`, every failure
before the last allowed attempt is followed by one backoff sleep of
`d * attempt_number` (linear, not exponential) and a retry; a success on
attempt `k` (0-based) returns the result after exactly the sleeps
`d*1, …, d*k`; after `max_attempts` failures the last failure propagates
with exactly the sleeps `d*1, …, d*(max_attempts-1)`. -/
theorem retry_linear_backoff (E A : Type) (d : ℚ) (n : Nat)
    (f : Nat → Outcome E A) :
    (∀ (k : Nat) (a : A), k < n →
      (∀ j, j < k → ∃ e, f j = Outcome.err e) → f k = Outcome.ok a →
      retryRun n d f = (some (Except.ok a),
        (List.range k).map (fun (j : ℕ) => d * ((j : ℚ) + 1)))) ∧
    (∀ es : Nat → E, 0 < n → (∀ j, j < n → f j = Outcome.err (es j)) →
      retryRun n d f = (some (Except.error (es (n - 1))),
        (List.range (n - 1)).map (fun (j : ℕ) => d * ((j : ℚ) + 1)))) := by
  constructor
  · intro k a hk herr hok
    rw [retryRun, retryAux_success f d k 0 a (by simpa using herr)
      (by simpa using hok) n hk]
    refine congrArg _ ?_
    apply List.map_congr_left
    intro j _
    push_cast
    ring
  · intro es hn herr
    rw [retryRun, retryAux_exhaust f d n 0 es hn (by simpa using herr)]
    refine congrArg _ ?_
    apply List.map_congr_left
    intro j _
    push_cast
    ring

/-- C8, witness: an operation failing twice then succeeding on the third
attempt under a 3-attempt budget returns the result with exactly the two
backoff sleeps `d*1` and `d*2` (here `d = 2`). -/
theorem retry_linear_backoff_witness :
    retryRun 3 2 (fun i => if i < 2 then Outcome.err "boom"
        else Outcome.ok (42 : Nat))
      = (some (Except.ok 42), [2, 4]) := by
  have h := (retry_linear_backoff String Nat 2 3
      (fun i => if i < 2 then Outcome.err "boom" else Outcome.ok 42)).1
    2 42 (by omega) (fun j hj => ⟨"boom", by simp [hj]⟩) (by simp)
  rw [h]
  norm_num [List.range_succ]

/-! ## Normalizer totality -/

theorem extract_number_from_textE_isOk (o : Option String) :
    ∃ v, extract_number_from_textE o = Except.ok v := by
  cases o with
  | none => exact ⟨none, rfl⟩
  | some s =>
    simp only [extract_number_from_textE]
    by_cases hs : s = ""
    · rw [if_pos hs]
      exact ⟨none, rfl⟩
    · rw [if_neg hs]
      cases hg : searchNumber s.data with
      | none => exact ⟨none, by simp [hg]⟩
      | some g =>
        cases hf : pyFloatE g with
        | ok v => exact ⟨some v, by simp [hg, hf]⟩
        | error e => exact ⟨none, by simp [hg, hf]⟩

/-- C9: the text/field normalizer operations are total and never raise:
the only potentially raising operation, the `float(...)` conversion
inside `extract_number_from_text`, sits inside a `try/except` that turns
a `ValueError` into `None`, so the exception-modelling embedding always
returns `ok`; and absent or empty input degrades to the absent sentinel
for every operation. -/
theorem data_cleaner_total (o : Option String) :
    (extract_number_from_textE o).isOk = true ∧
    extract_number_from_textE o = Except.ok (extract_number_from_text o) ∧
    ((o = none ∨ o = some "") →
      clean_text o = none ∧ extract_number_from_text o = none ∧
      parse_employee_count o = none ∧ parse_date_range o = (none, none) ∧
      parse_project_size o = none) := by
  obtain ⟨v, hv⟩ := extract_number_from_textE_isOk o
  refine ⟨by rw [hv]; rfl, by rw [hv, extract_number_from_text, hv], ?_⟩
  rintro (h | h) <;> subst h <;>
    exact ⟨rfl, by rw [extract_number_from_text]; rfl, rfl, rfl, rfl⟩

/-- C9, witness: instances at absent and at empty input. -/
theorem data_cleaner_total_witness :
    (extract_number_from_textE none).isOk = true ∧
    clean_text (some "") = none ∧
    extract_number_from_text (some "") = none ∧
    parse_employee_count (some "") = none ∧
    parse_date_range (some "") = (none, none) ∧
    parse_project_size (some "") = none :=
  ⟨(data_cleaner_total none).1,
   ((data_cleaner_total (some "")).2.2 (Or.inr rfl)).1,
   ((data_cleaner_total (some "")).2.2 (Or.inr rfl)).2.1,
   ((data_cleaner_total (some "")).2.2 (Or.inr rfl)).2.2.1,
   ((data_cleaner_total (some "")).2.2 (Or.inr rfl)).2.2.2.1,
   ((data_cleaner_total (some "")).2.2 (Or.inr rfl)).2.2.2.2⟩

/-! ## Employee-count pattern lemmas -/

theorem digit_char_facts {c : Char} (h : c ∈ "0123456789".data) :
    c.toLower = c ∧ isPySpace c = false ∧ c.isDigit = true ∧
    c ≠ '-' ∧ c ≠ 'm' ∧ c ≠ '+' := by
  fin_cases h <;> exact ⟨rfl, rfl, rfl, by decide, by decide, by decide⟩

theorem takeDigits_split : ∀ l : List Char,
    (takeDigits l).1 ++ (takeDigits l).2 = l := by
  intro l
  induction l with
  | nil => rfl
  | cons c rest ih =>
    rw [takeDigits]
    by_cases hc : c.isDigit = true
    · simpa [hc] using ih
    · simp [hc]

theorem takeDigits_append_eq {ds r : List Char}
    (hds : ∀ c ∈ ds, c.isDigit = true)
    (hr : ∀ c, r.head? = some c → c.isDigit = false) :
    takeDigits (ds ++ r) = (ds, r) := by
  induction ds with
  | nil =>
    cases r with
    | nil => rfl
    | cons c rest =>
      rw [List.nil_append, takeDigits]
      simp [hr c rfl]
  | cons d ds ih =>
    rw [List.cons_append, takeDigits]
    have hd : d.isDigit = true := hds d (List.mem_cons_self _ _)
    rw [if_pos hd, ih (fun c hc => hds c (List.mem_cons_of_mem _ hc))]

theorem matchLit_some : ∀ (lit x rest : List Char),
    matchLit lit x = some rest → x = lit ++ rest := by
  intro lit
  induction lit with
  | nil =>
    intro x rest h
    simpa [matchLit] using (Option.some.inj h).symm ▸ rfl
  | cons c cs ih =>
    intro x rest h
    cases x with
    | nil => simp [matchLit] at h
    | cons y ys =>
      rw [matchLit] at h
      by_cases hy : y = c
      · rw [if_pos hy] at h
        rw [List.cons_append, hy, ih ys rest h]
      · rw [if_neg hy] at h
        simp at h

theorem dropWhile_eq_self_of_head {α : Type} {p : α → Bool} {l : List α}
    (h : ∀ c, l.head? = some c → p c = false) : l.dropWhile p = l := by
  cases l with
  | nil => rfl
  | cons c rest =>
    exact List.dropWhile_cons_of_neg (by simp [h c rfl])

theorem pyStrip_no_op {l : List Char}
    (h1 : ∀ c, l.head? = some c → isPySpace c = false)
    (h2 : ∀ c, l.getLast? = some c → isPySpace c = false) :
    pyStrip l = l := by
  have h2' : ∀ c, l.reverse.head? = some c → isPySpace c = false := by
    intro c hc
    rw [List.head?_reverse] at hc
    exact h2 c hc
  rw [pyStrip, dropWhile_eq_self_of_head h1, dropWhile_eq_self_of_head h2',
    List.reverse_reverse]

theorem map_toLower_self {l : List Char} (h : ∀ c ∈ l, c.toLower = c) :
    l.map Char.toLower = l := by
  rw [List.map_congr_left h]
  exact List.map_id' l

theorem takeDigits_snd_subset (l : List Char) : (takeDigits l).2 ⊆ l := by
  intro c hc
  rw [← takeDigits_split l]
  exact List.mem_append.mpr (Or.inr hc)

theorem dash_mem_of_matchRangeAt {unit l : List Char}
    {g : List Char × List Char} (h : matchRangeAt unit l = some g) :
    '-' ∈ l := by
  simp only [matchRangeAt] at h
  split at h
  · exact absurd h (by simp)
  · split at h
    · next r2 heq =>
        have hm : '-' ∈ (takeDigits l).2.dropWhile isPySpace := by
          rw [heq]
          exact List.mem_cons_self _ _
        exact takeDigits_snd_subset l ((List.dropWhile_sublist _).subset hm)
    · exact absurd h (by simp)

theorem unit_mem_of_matchRangeAt {unit l : List Char} {c : Char}
    {g : List Char × List Char} (hcu : c ∈ unit)
    (h : matchRangeAt unit l = some g) : c ∈ l := by
  simp only [matchRangeAt] at h
  split at h
  · exact absurd h (by simp)
  · split at h
    · next r2 heq =>
        split at h
        · exact absurd h (by simp)
        · split at h
          · next w hlit =>
              have hx := matchLit_some unit _ w hlit
              have hc1 : c ∈ (takeDigits (r2.dropWhile isPySpace)).2.dropWhile
                  isPySpace := by
                rw [hx]
                exact List.mem_append.mpr (Or.inl hcu)
              have hc2 : c ∈ r2 :=
                (List.dropWhile_sublist _).subset
                  (takeDigits_snd_subset _
                    ((List.dropWhile_sublist _).subset hc1))
              have hc3 : c ∈ (takeDigits l).2.dropWhile isPySpace := by
                rw [heq]
                exact List.mem_cons_of_mem _ hc2
              exact takeDigits_snd_subset l
                ((List.dropWhile_sublist _).subset hc3)
          · next hlit => exact absurd h (by simp)
    · exact absurd h (by simp)

theorem unit_mem_of_matchPlusAt {unit l : List Char} {c : Char}
    {d : List Char} (hcu : c ∈ unit)
    (h : matchPlusAt unit l = some d) : c ∈ l := by
  simp only [matchPlusAt] at h
  split at h
  · exact absurd h (by simp)
  · split at h
    · next w heq =>
        by_cases hh : (takeDigits l).2.head? = some '+'
        · rw [if_pos hh] at heq
          have hx := matchLit_some unit _ w heq
          have hc1 : c ∈ (takeDigits l).2.tail.dropWhile isPySpace := by
            rw [hx]
            exact List.mem_append.mpr (Or.inl hcu)
          have hc2 : c ∈ (takeDigits l).2 :=
            (List.tail_sublist _).subset
              ((List.dropWhile_sublist _).subset hc1)
          exact takeDigits_snd_subset l hc2
        · rw [if_neg hh] at heq
          have hx := matchLit_some unit _ w heq
          have hc1 : c ∈ (takeDigits l).2.dropWhile isPySpace := by
            rw [hx]
            exact List.mem_append.mpr (Or.inl hcu)
          exact takeDigits_snd_subset l
            ((List.dropWhile_sublist _).subset hc1)
    · exact absurd h (by simp)

theorem searchRange_none_of_no_dash {unit : List Char} :
    ∀ l : List Char, '-' ∉ l → searchRange unit l = none := by
  intro l
  induction l with
  | nil => intro _; rfl
  | cons c rest ih =>
    intro hl
    cases hm : matchRangeAt unit (c :: rest) with
    | some g => exact absurd (dash_mem_of_matchRangeAt hm) hl
    | none =>
      simp only [searchRange, hm]
      exact ih (fun hmem => hl (List.mem_cons_of_mem _ hmem))

theorem searchRange_none_of_unit {unit : List Char} {c : Char}
    (hcu : c ∈ unit) :
    ∀ l : List Char, c ∉ l → searchRange unit l = none := by
  intro l
  induction l with
  | nil => intro _; rfl
  | cons x rest ih =>
    intro hl
    cases hm : matchRangeAt unit (x :: rest) with
    | some g => exact absurd (unit_mem_of_matchRangeAt hcu hm) hl
    | none =>
      simp only [searchRange, hm]
      exact ih (fun hmem => hl (List.mem_cons_of_mem _ hmem))

theorem searchPlus_none_of_unit {unit : List Char} {c : Char}
    (hcu : c ∈ unit) :
    ∀ l : List Char, c ∉ l → searchPlus unit l = none := by
  intro l
  induction l with
  | nil => intro _; rfl
  | cons x rest ih =>
    intro hl
    cases hm : matchPlusAt unit (x :: rest) with
    | some d => exact absurd (unit_mem_of_matchPlusAt hcu hm) hl
    | none =>
      simp only [searchPlus, hm]
      exact ih (fun hmem => hl (List.mem_cons_of_mem _ hmem))

theorem matchRangeAt_exact {unit ds ms rest w : List Char}
    (hds : ds ≠ []) (hms : ms ≠ [])
    (hdds : ∀ c ∈ ds, c ∈ "0123456789".data)
    (hdms : ∀ c ∈ ms, c ∈ "0123456789".data)
    (hrest : ∀ c, rest.head? = some c → c.isDigit = false)
    (hlit : matchLit unit (rest.dropWhile isPySpace) = some w) :
    matchRangeAt unit (ds ++ '-' :: (ms ++ rest)) = some (ds, ms) := by
  have hd1 : ∀ c ∈ ds, c.isDigit = true :=
    fun c hc => (digit_char_facts (hdds c hc)).2.2.1
  have hd2 : ∀ c ∈ ms, c.isDigit = true :=
    fun c hc => (digit_char_facts (hdms c hc)).2.2.1
  have ht1 : takeDigits (ds ++ '-' :: (ms ++ rest))
      = (ds, '-' :: (ms ++ rest)) := by
    apply takeDigits_append_eq hd1
    intro c hc
    simp only [List.head?_cons, Option.some.injEq] at hc
    subst hc
    decide
  have hdw2 : (ms ++ rest).dropWhile isPySpace = ms ++ rest := by
    apply dropWhile_eq_self_of_head
    intro c hc
    obtain ⟨m0, ms', hm⟩ := List.exists_cons_of_ne_nil hms
    subst hm
    rw [List.cons_append, List.head?_cons] at hc
    have hc' := Option.some.inj hc
    subst hc'
    exact (digit_char_facts (hdms _ (List.mem_cons_self _ _))).2.1
  have ht2 : takeDigits (ms ++ rest) = (ms, rest) :=
    takeDigits_append_eq hd2 hrest
  simp only [matchRangeAt, ht1]
  rw [if_neg hds]
  rw [List.dropWhile_cons_of_neg (by decide)]
  simp only [hdw2, ht2, hlit]
  rw [if_neg hms]

theorem matchPlusAt_plus {unit ds rest w : List Char} (hds : ds ≠ [])
    (hdds : ∀ c ∈ ds, c ∈ "0123456789".data)
    (hlit : matchLit unit (rest.dropWhile isPySpace) = some w) :
    matchPlusAt unit (ds ++ '+' :: rest) = some ds := by
  have hd1 : ∀ c ∈ ds, c.isDigit = true :=
    fun c hc => (digit_char_facts (hdds c hc)).2.2.1
  have ht1 : takeDigits (ds ++ '+' :: rest) = (ds, '+' :: rest) := by
    apply takeDigits_append_eq hd1
    intro c hc
    simp only [List.head?_cons, Option.some.injEq] at hc
    subst hc
    decide
  simp only [matchPlusAt, ht1, List.head?_cons, List.tail_cons, if_pos,
    hlit]
  rw [if_neg hds]

theorem matchPlusAt_noplus {unit ds rest w : List Char} (hds : ds ≠ [])
    (hdds : ∀ c ∈ ds, c ∈ "0123456789".data)
    (hrest : ∀ c, rest.head? = some c → c.isDigit = false ∧ c ≠ '+')
    (hlit : matchLit unit (rest.dropWhile isPySpace) = some w) :
    matchPlusAt unit (ds ++ rest) = some ds := by
  have hd1 : ∀ c ∈ ds, c.isDigit = true :=
    fun c hc => (digit_char_facts (hdds c hc)).2.2.1
  have ht1 : takeDigits (ds ++ rest) = (ds, rest) :=
    takeDigits_append_eq hd1 (fun c hc => (hrest c hc).1)
  have hh : ¬rest.head? = some '+' := by
    intro h
    cases rest with
    | nil => simp at h
    | cons r0 rest' =>
      exact (hrest r0 rfl).2 (Option.some.inj h)
  simp only [matchPlusAt, ht1]
  rw [if_neg hds, if_neg hh, hlit]

theorem searchRange_cons {unit rest g : List Char} {c : Char}
    {g2 : List Char}
    (h : matchRangeAt unit (c :: rest) = some (g, g2)) :
    searchRange unit (c :: rest) = some (g, g2) := by
  simp [searchRange, h]

theorem searchPlus_cons {unit rest d : List Char} {c : Char}
    (h : matchPlusAt unit (c :: rest) = some d) :
    searchPlus unit (c :: rest) = some d := by
  simp [searchPlus, h]

theorem pyNorm_eq_self {t : List Char}
    (hlower : t.map Char.toLower = t) (hstrip : pyStrip t = t) :
    pyStrip (pyLower (String.mk t).data) = t := by
  show pyStrip (pyLower t) = t
  rw [pyLower, hlower, hstrip]

theorem pec_of_range_employee {t g1 g2 : List Char} (hne : t ≠ [])
    (hlower : t.map Char.toLower = t) (hstrip : pyStrip t = t)
    (h1 : searchRange "employee".data t = some (g1, g2)) :
    parse_employee_count (some (String.mk t))
      = some (String.mk (g1 ++ '-' :: g2 ++ " employees".data)) := by
  simp only [parse_employee_count, pyNorm_eq_self hlower hstrip, h1]
  rw [if_neg (fun h => hne (congrArg String.data h))]

theorem pec_of_plus_employee {t d : List Char} (hne : t ≠ [])
    (hlower : t.map Char.toLower = t) (hstrip : pyStrip t = t)
    (h1 : searchRange "employee".data t = none)
    (h2 : searchPlus "employee".data t = some d) :
    parse_employee_count (some (String.mk t))
      = some (String.mk (d ++ "+ employees".data)) := by
  simp only [parse_employee_count, pyNorm_eq_self hlower hstrip, h1, h2]
  rw [if_neg (fun h => hne (congrArg String.data h))]

theorem pec_of_range_people {t g1 g2 : List Char} (hne : t ≠ [])
    (hlower : t.map Char.toLower = t) (hstrip : pyStrip t = t)
    (h1 : searchRange "employee".data t = none)
    (h2 : searchPlus "employee".data t = none)
    (h3 : searchRange "people".data t = some (g1, g2)) :
    parse_employee_count (some (String.mk t))
      = some (String.mk (g1 ++ '-' :: g2 ++ " employees".data)) := by
  simp only [parse_employee_count, pyNorm_eq_self hlower hstrip, h1, h2, h3]
  rw [if_neg (fun h => hne (congrArg String.data h))]

theorem pec_of_plus_people {t d : List Char} (hne : t ≠ [])
    (hlower : t.map Char.toLower = t) (hstrip : pyStrip t = t)
    (h1 : searchRange "employee".data t = none)
    (h2 : searchPlus "employee".data t = none)
    (h3 : searchRange "people".data t = none)
    (h4 : searchPlus "people".data t = some d) :
    parse_employee_count (some (String.mk t))
      = some (String.mk (d ++ "+ employees".data)) := by
  simp only [parse_employee_count, pyNorm_eq_self hlower hstrip,
    h1, h2, h3, h4]
  rw [if_neg (fun h => hne (congrArg String.data h))]

theorem pec_fallback {s : String} (hne : s ≠ "")
    (h1 : searchRange "employee".data (pyStrip (pyLower s.data)) = none)
    (h2 : searchPlus "employee".data (pyStrip (pyLower s.data)) = none)
    (h3 : searchRange "people".data (pyStrip (pyLower s.data)) = none)
    (h4 : searchPlus "people".data (pyStrip (pyLower s.data)) = none) :
    parse_employee_count (some s)
      = clean_text (some (String.mk (pyStrip (pyLower s.data)))) := by
  simp only [parse_employee_count, h1, h2, h3, h4]
  rw [if_neg hne]

theorem toLower_fixed_digits {ds : List Char}
    (h : ∀ c ∈ ds, c ∈ "0123456789".data) :
    ∀ c ∈ ds, c.toLower = c :=
  fun c hc => (digit_char_facts (h c hc)).1

theorem toLower_fixed_append {X Y : List Char}
    (hX : ∀ c ∈ X, c.toLower = c) (hY : ∀ c ∈ Y, c.toLower = c) :
    ∀ c ∈ X ++ Y, c.toLower = c := by
  intro c hc
  rcases List.mem_append.mp hc with h | h
  · exact hX c h
  · exact hY c h

theorem toLower_fixed_cons {c0 : Char} {X : List Char}
    (h0 : c0.toLower = c0) (hX : ∀ c ∈ X, c.toLower = c) :
    ∀ c ∈ c0 :: X, c.toLower = c := by
  intro c hc
  rcases List.mem_cons.mp hc with h | h
  · rw [h]
    exact h0
  · exact hX c h

/-- Normalization facts for inputs of the form `digit-run ++ rest` with a
whitespace-free, lowercase tail. -/
theorem shape_norm {ds rest : List Char} (hds : ds ≠ [])
    (hdds : ∀ c ∈ ds, c ∈ "0123456789".data)
    (hrl : ∀ c ∈ rest, c.toLower = c)
    (hrlast : ∀ c, rest.getLast? = some c → isPySpace c = false)
    (hrne : rest ≠ []) :
    ds ++ rest ≠ [] ∧ (ds ++ rest).map Char.toLower = ds ++ rest ∧
    pyStrip (ds ++ rest) = ds ++ rest := by
  obtain ⟨d0, ds', rfl⟩ := List.exists_cons_of_ne_nil hds
  refine ⟨by simp, ?_, ?_⟩
  · exact map_toLower_self
      (toLower_fixed_append (toLower_fixed_digits hdds) hrl)
  · apply pyStrip_no_op
    · intro c hc
      rw [List.cons_append, List.head?_cons] at hc
      have h' := Option.some.inj hc
      subst h'
      exact (digit_char_facts (hdds _ (List.mem_cons_self _ _))).2.1
    · intro c hc
      rw [List.getLast?_append] at hc
      obtain ⟨r0, rest', rfl⟩ := List.exists_cons_of_ne_nil hrne
      cases hlast : (r0 :: rest').getLast? with
      | none => simp at hlast
      | some cl =>
        rw [hlast] at hc
        simp only [Option.or_some, Option.some.injEq] at hc
        subst hc
        exact hrlast _ hlast

theorem searchRange_head {unit l : List Char} {g1 g2 : List Char}
    (hl : l ≠ []) (h : matchRangeAt unit l = some (g1, g2)) :
    searchRange unit l = some (g1, g2) := by
  obtain ⟨c, rest, rfl⟩ := List.exists_cons_of_ne_nil hl
  simp [searchRange, h]

theorem searchPlus_head {unit l d : List Char}
    (hl : l ≠ []) (h : matchPlusAt unit l = some d) :
    searchPlus unit l = some d := by
  obtain ⟨c, rest, rfl⟩ := List.exists_cons_of_ne_nil hl
  simp [searchPlus, h]

/-- `parse_employee_count` on `"N-M employees"`. -/
theorem parse_employee_count_range_employees {ds ms : List Char}
    (hds : ds ≠ []) (hms : ms ≠ [])
    (hdds : ∀ c ∈ ds, c ∈ "0123456789".data)
    (hdms : ∀ c ∈ ms, c ∈ "0123456789".data) :
    parse_employee_count
        (some (String.mk (ds ++ '-' :: (ms ++ " employees".data))))
      = some (String.mk (ds ++ '-' :: (ms ++ " employees".data))) := by
  have hlast : ∀ c, ((('-' :: ms) ++ " employees".data).getLast?
      = some c) → isPySpace c = false := by
    intro c hc
    rw [List.getLast?_append] at hc
    have h' := Option.some.inj hc
    subst h'
    decide
  obtain ⟨hne, hlow, hstrip⟩ := shape_norm hds hdds
    (toLower_fixed_cons (by decide)
      (toLower_fixed_append (toLower_fixed_digits hdms) (by decide)))
    hlast (by simp)
  have hmatch : matchRangeAt "employee".data
      (ds ++ '-' :: (ms ++ " employees".data)) = some (ds, ms) :=
    matchRangeAt_exact hds hms hdds hdms
      (by
        intro c hc
        have h' := Option.some.inj hc
        subst h'
        decide)
      (show matchLit "employee".data
        ((" employees".data).dropWhile isPySpace) = some ['s'] by rfl)
  exact (pec_of_range_employee hne hlow hstrip
    (searchRange_head hne hmatch)).trans (by simp)

/-- `parse_employee_count` on `"N-M people"`. -/
theorem parse_employee_count_range_people {ds ms : List Char}
    (hds : ds ≠ []) (hms : ms ≠ [])
    (hdds : ∀ c ∈ ds, c ∈ "0123456789".data)
    (hdms : ∀ c ∈ ms, c ∈ "0123456789".data) :
    parse_employee_count
        (some (String.mk (ds ++ '-' :: (ms ++ " people".data))))
      = some (String.mk (ds ++ '-' :: (ms ++ " employees".data))) := by
  have hlast : ∀ c, ((('-' :: ms) ++ " people".data).getLast?
      = some c) → isPySpace c = false := by
    intro c hc
    rw [List.getLast?_append] at hc
    have h' := Option.some.inj hc
    subst h'
    decide
  obtain ⟨hne, hlow, hstrip⟩ := shape_norm hds hdds
    (toLower_fixed_cons (by decide)
      (toLower_fixed_append (toLower_fixed_digits hdms) (by decide)))
    hlast (by simp)
  have hmnot : 'm' ∉ ds ++ '-' :: (ms ++ " people".data) := by
    intro hm
    rcases List.mem_append.mp hm with h | h
    · exact absurd (hdds _ h) (by decide)
    · rcases List.mem_cons.mp h with h | h
      · exact absurd h (by decide)
      · rcases List.mem_append.mp h with h | h
        · exact absurd (hdms _ h) (by decide)
        · exact absurd h (by decide)
  have hmatch : matchRangeAt "people".data
      (ds ++ '-' :: (ms ++ " people".data)) = some (ds, ms) :=
    matchRangeAt_exact hds hms hdds hdms
      (by
        intro c hc
        have h' := Option.some.inj hc
        subst h'
        decide)
      (show matchLit "people".data
        ((" people".data).dropWhile isPySpace) = some [] by rfl)
  exact (pec_of_range_people hne hlow hstrip
    (searchRange_none_of_unit (by decide) _ hmnot)
    (searchPlus_none_of_unit (by decide) _ hmnot)
    (searchRange_head hne hmatch)).trans (by simp)

/-- `parse_employee_count` on `"N+ employees"`. -/
theorem parse_employee_count_plus_employees {ds : List Char}
    (hds : ds ≠ []) (hdds : ∀ c ∈ ds, c ∈ "0123456789".data) :
    parse_employee_count (some (String.mk (ds ++ "+ employees".data)))
      = some (String.mk (ds ++ "+ employees".data)) := by
  have hlast : ∀ c, (("+ employees".data).getLast? = some c) →
      isPySpace c = false := by
    intro c hc
    have h' := Option.some.inj hc
    subst h'
    decide
  obtain ⟨hne, hlow, hstrip⟩ := shape_norm hds hdds (by decide) hlast
    (by decide)
  have hdnot : '-' ∉ ds ++ "+ employees".data := by
    intro hm
    rcases List.mem_append.mp hm with h | h
    · exact absurd (hdds _ h) (by decide)
    · exact absurd h (by decide)
  have hmatch : matchPlusAt "employee".data
      (ds ++ '+' :: " employees".data) = some ds :=
    matchPlusAt_plus hds hdds
      (show matchLit "employee".data
        ((" employees".data).dropWhile isPySpace) = some ['s'] by rfl)
  exact pec_of_plus_employee hne hlow hstrip
    (searchRange_none_of_no_dash _ hdnot)
    (searchPlus_head hne hmatch)

/-- `parse_employee_count` on `"N employees"` (no plus sign). -/
theorem parse_employee_count_bare_employees {ds : List Char}
    (hds : ds ≠ []) (hdds : ∀ c ∈ ds, c ∈ "0123456789".data) :
    parse_employee_count (some (String.mk (ds ++ " employees".data)))
      = some (String.mk (ds ++ "+ employees".data)) := by
  have hlast : ∀ c, ((" employees".data).getLast? = some c) →
      isPySpace c = false := by
    intro c hc
    have h' := Option.some.inj hc
    subst h'
    decide
  obtain ⟨hne, hlow, hstrip⟩ := shape_norm hds hdds (by decide) hlast
    (by decide)
  have hdnot : '-' ∉ ds ++ " employees".data := by
    intro hm
    rcases List.mem_append.mp hm with h | h
    · exact absurd (hdds _ h) (by decide)
    · exact absurd h (by decide)
  have hmatch : matchPlusAt "employee".data
      (ds ++ " employees".data) = some ds :=
    matchPlusAt_noplus hds hdds
      (by
        intro c hc
        have h' := Option.some.inj hc
        subst h'
        exact ⟨by decide, by decide⟩)
      (show matchLit "employee".data
        ((" employees".data).dropWhile isPySpace) = some ['s'] by rfl)
  exact pec_of_plus_employee hne hlow hstrip
    (searchRange_none_of_no_dash _ hdnot)
    (searchPlus_head hne hmatch)

/-- `parse_employee_count` on `"N+ people"`. -/
theorem parse_employee_count_plus_people {ds : List Char}
    (hds : ds ≠ []) (hdds : ∀ c ∈ ds, c ∈ "0123456789".data) :
    parse_employee_count (some (String.mk (ds ++ "+ people".data)))
      = some (String.mk (ds ++ "+ employees".data)) := by
  have hlast : ∀ c, (("+ people".data).getLast? = some c) →
      isPySpace c = false := by
    intro c hc
    have h' := Option.some.inj hc
    subst h'
    decide
  obtain ⟨hne, hlow, hstrip⟩ := shape_norm hds hdds (by decide) hlast
    (by decide)
  have hdnot : '-' ∉ ds ++ "+ people".data := by
    intro hm
    rcases List.mem_append.mp hm with h | h
    · exact absurd (hdds _ h) (by decide)
    · exact absurd h (by decide)
  have hmnot : 'm' ∉ ds ++ "+ people".data := by
    intro hm
    rcases List.mem_append.mp hm with h | h
    · exact absurd (hdds _ h) (by decide)
    · exact absurd h (by decide)
  have hmatch : matchPlusAt "people".data
      (ds ++ '+' :: " people".data) = some ds :=
    matchPlusAt_plus hds hdds
      (show matchLit "people".data
        ((" people".data).dropWhile isPySpace) = some [] by rfl)
  exact pec_of_plus_people hne hlow hstrip
    (searchRange_none_of_no_dash _ hdnot)
    (searchPlus_none_of_unit (by decide) _ hmnot)
    (searchRange_none_of_no_dash _ hdnot)
    (searchPlus_head hne hmatch)

/-- `parse_employee_count` on `"N people"` (no plus sign). -/
theorem parse_employee_count_bare_people {ds : List Char}
    (hds : ds ≠ []) (hdds : ∀ c ∈ ds, c ∈ "0123456789".data) :
    parse_employee_count (some (String.mk (ds ++ " people".data)))
      = some (String.mk (ds ++ "+ employees".data)) := by
  have hlast : ∀ c, ((" people".data).getLast? = some c) →
      isPySpace c = false := by
    intro c hc
    have h' := Option.some.inj hc
    subst h'
    decide
  obtain ⟨hne, hlow, hstrip⟩ := shape_norm hds hdds (by decide) hlast
    (by decide)
  have hdnot : '-' ∉ ds ++ " people".data := by
    intro hm
    rcases List.mem_append.mp hm with h | h
    · exact absurd (hdds _ h) (by decide)
    · exact absurd h (by decide)
  have hmnot : 'm' ∉ ds ++ " people".data := by
    intro hm
    rcases List.mem_append.mp hm with h | h
    · exact absurd (hdds _ h) (by decide)
    · exact absurd h (by decide)
  have hmatch : matchPlusAt "people".data
      (ds ++ " people".data) = some ds :=
    matchPlusAt_noplus hds hdds
      (by
        intro c hc
        have h' := Option.some.inj hc
        subst h'
        exact ⟨by decide, by decide⟩)
      (show matchLit "people".data
        ((" people".data).dropWhile isPySpace) = some [] by rfl)
  exact pec_of_plus_people hne hlow hstrip
    (searchRange_none_of_no_dash _ hdnot)
    (searchPlus_none_of_unit (by decide) _ hmnot)
    (searchRange_none_of_no_dash _ hdnot)
    (searchPlus_head hne hmatch)

/-- C7, counterexample: `"100 employees"` matches none of the four
claimed patterns — no plus sign, no dash, as the spec-side recognizer
(mandatory plus) confirms — yet `parse_employee_count` does not return
the cleaned raw text `"100 employees"`: the source pattern
`(\d+)\+?\s*employees?` makes the plus optional and normalizes it to
`"100+ employees"`. -/
theorem parse_employee_count_plus_counterexample :
    specEmployeePatternMatch "100 employees" = false ∧
    parse_employee_count (some "100 employees") = some "100+ employees" ∧
    clean_text (some "100 employees") = some "100 employees" ∧
    (some "100+ employees" : Option String) ≠ some "100 employees" :=
  ⟨by decide, by decide, by decide, by decide⟩

/-- C7, amended: `parse_employee_count` recognizes `"N-M employees"`,
`"N-M people"` and — with the plus sign optional — `"N(+) employees"`,
`"N(+) people"` case-insensitively, normalizing every match to canonical
`"N-M employees"` / `"N+ employees"` (so `"N employees"` without a plus
is also normalized to `"N+ employees"`); for every input on which none
of the code's four patterns fires, it returns `clean_text` of the
lowercased, stripped raw text; in particular `"50-100 employees"` ↦
`"50-100 employees"`, `"200+ employees"` ↦ `"200+ employees"`,
`"unclear text"` ↦ `"unclear text"`, `"100 employees"` ↦
`"100+ employees"`. -/
theorem parse_employee_count_amended :
    (∀ ds ms : List Char, ds ≠ [] → ms ≠ [] →
      (∀ c ∈ ds, c ∈ "0123456789".data) →
      (∀ c ∈ ms, c ∈ "0123456789".data) →
      parse_employee_count
          (some (String.mk (ds ++ '-' :: (ms ++ " employees".data))))
        = some (String.mk (ds ++ '-' :: (ms ++ " employees".data))) ∧
      parse_employee_count
          (some (String.mk (ds ++ '-' :: (ms ++ " people".data))))
        = some (String.mk (ds ++ '-' :: (ms ++ " employees".data)))) ∧
    (∀ ds : List Char, ds ≠ [] → (∀ c ∈ ds, c ∈ "0123456789".data) →
      parse_employee_count (some (String.mk (ds ++ "+ employees".data)))
        = some (String.mk (ds ++ "+ employees".data)) ∧
      parse_employee_count (some (String.mk (ds ++ " employees".data)))
        = some (String.mk (ds ++ "+ employees".data)) ∧
      parse_employee_count (some (String.mk (ds ++ "+ people".data)))
        = some (String.mk (ds ++ "+ employees".data)) ∧
      parse_employee_count (some (String.mk (ds ++ " people".data)))
        = some (String.mk (ds ++ "+ employees".data))) ∧
    (∀ s : String, s ≠ "" →
      searchRange "employee".data (pyStrip (pyLower s.data)) = none →
      searchPlus "employee".data (pyStrip (pyLower s.data)) = none →
      searchRange "people".data (pyStrip (pyLower s.data)) = none →
      searchPlus "people".data (pyStrip (pyLower s.data)) = none →
      parse_employee_count (some s)
        = clean_text (some (String.mk (pyStrip (pyLower s.data))))) ∧
    parse_employee_count (some "50-100 employees")
      = some "50-100 employees" ∧
    parse_employee_count (some "200+ employees") = some "200+ employees" ∧
    parse_employee_count (some "unclear text") = some "unclear text" ∧
    parse_employee_count (some "100 employees")
      = some "100+ employees" := by
  refine ⟨?_, ?_, ?_, by decide, by decide, by decide, by decide⟩
  · intro ds ms h1 h2 h3 h4
    exact ⟨parse_employee_count_range_employees h1 h2 h3 h4,
           parse_employee_count_range_people h1 h2 h3 h4⟩
  · intro ds h1 h2
    exact ⟨parse_employee_count_plus_employees h1 h2,
           parse_employee_count_bare_employees h1 h2,
           parse_employee_count_plus_people h1 h2,
           parse_employee_count_bare_people h1 h2⟩
  · intro s h1 h2 h3 h4 h5
    exact pec_fallback h1 h2 h3 h4 h5

/-- C7, witness: concrete instances of the amended behaviour. -/
theorem parse_employee_count_amended_witness :
    parse_employee_count
        (some (String.mk (['5'] ++ '-' :: (['7'] ++ " employees".data))))
      = some (String.mk (['5'] ++ '-' :: (['7'] ++ " employees".data))) ∧
    parse_employee_count (some (String.mk (['5'] ++ " people".data)))
      = some (String.mk (['5'] ++ "+ employees".data)) ∧
    parse_employee_count (some "hello")
      = clean_text (some (String.mk (pyStrip (pyLower "hello".data)))) :=
  ⟨(parse_employee_count_amended.1 ['5'] ['7'] (by decide) (by decide)
      (by decide) (by decide)).1,
   (parse_employee_count_amended.2.1 ['5'] (by decide) (by decide)).2.2.2,
   parse_employee_count_amended.2.2.1 "hello" (by decide) (by decide)
     (by decide) (by decide) (by decide)⟩

end WebScraper

